import Mathlib

/-!
Verification of the Wavefunction-Collapse Sudoku solver.

The development shallowly embeds the Python sources:
  * `src/wfc/sudoku_wfc/sudoku_space.py` (class `SudokuSpace`),
  * `src/wfc/sudoku_wfc/sudoku_board.py` (class `SudokuBoard` and `is_valid`),
  * `src/wfc/wfc.py` (class `WFC`).

Modelling conventions:
  * Python `int` values stored in a space become `Int`; sets of candidate
    values become `Finset Int`.
  * Python `None` becomes `Option.none`.
  * Python exceptions become `Except Err` results (or an error constructor of
    a result type); each `Err` constructor records the raise site.
  * `random.choice(seq)` is modelled by an extra `Nat` argument `k` selecting
    the element at index `k % seq.length` of a canonical enumeration of the
    set; `random.choice` on an empty sequence raises `IndexError`, modelled by
    `Err.indexErrorChoice`.
  * The `N x N` grid `_wavefunction` (a `List[List[SudokuSpace]]`, indexed
    `[y][x]`) becomes a total function `Grid := Nat × Nat → SudokuSpace`
    applied to `(x, y)`; only indices below the board size are ever accessed
    by the algorithm on an in-range run.
  * The unbounded Python `while` loops become fuel-indexed recursions; fuel
    exhaustion is a distinguished outcome (`outOfFuel`) that has no Python
    counterpart, and for propagation we prove that the chosen fuel suffices.
-/

/-- Python exception sites of the embedded code.  Each constructor names the
raise site it models; `outOfFuel` is the fuel-exhaustion artifact of the
embedding and corresponds to no Python behaviour. -/
inductive Err where
  /-- `IndexError` raised by the coordinate range guard of
  `SudokuBoard.get_affected_spaces`. -/
  | indexErrorCoords
  /-- `IndexError` raised by `random.choice(tuple(...))` on an empty sequence
  inside `SudokuSpace.collapase`. -/
  | indexErrorChoice
  /-- `IndexError` raised by `self.previous_wavefunctions.pop()` on an empty
  list inside `WFC.collapse_wavefunction`. -/
  | indexErrorPop
  /-- `ValueError` raised by constructor/argument validation. -/
  | valueError
  /-- Fuel exhaustion of the embedding (no Python counterpart). -/
  | outOfFuel
deriving DecidableEq, Repr

/-- A space on the sudoku board (class `SudokuSpace`, which instantiates
`WFCTile[int]`).  Field order follows the attribute assignments of
`SudokuSpace.__init__`: coordinates, `max_value`, the optional committed
`value`, the candidate domain `possible_values`, and `neighbors` (the values
this space may still impose on other spaces). -/
@[ext]
structure SudokuSpace where
  x : Nat
  y : Nat
  max_value : Nat
  value : Option Int
  possible_values : Finset Int
  neighbors : Finset Int
deriving DecidableEq

/-- Python truthiness of the optional `value` argument: `None` and `0` are
falsy, every other integer is truthy. -/
def truthyVal : Option Int → Bool
  | none => false
  | some v => !(v == 0)

/-- The full candidate range `set(range(1, max_value + 1))`. -/
def fullRange (max_value : Nat) : Finset Int := Finset.Icc 1 (max_value : Int)

/-- `SudokuSpace.__init__`: validates a truthy starting value against
`[1, max_value]` (raising `ValueError` otherwise), stores the value as given,
and initializes `possible_values` to the full range (or `{value}` when the
value is truthy) and `neighbors` to the full range minus a truthy value. -/
def SudokuSpace.init (x y : Nat) (max_value : Nat) (value : Option Int) :
    Except Err SudokuSpace :=
  if truthyVal value ∧ (value.getD 0 < 1 ∨ value.getD 0 > (max_value : Int)) then
    .error .valueError
  else
    .ok ⟨x, y, max_value, value,
      if truthyVal value then {value.getD 0} else fullRange max_value,
      if truthyVal value then (fullRange max_value).erase (value.getD 0)
      else fullRange max_value⟩

/-- `SudokuSpace.validate_value`: raises `ValueError` when `new_value` is
truthy (non-zero) and outside `[1, max_value]`; otherwise does nothing. -/
def SudokuSpace.validate_value (s : SudokuSpace) (new_value : Int) :
    Except Err Unit :=
  if !(new_value == 0) ∧ (new_value < 1 ∨ new_value > (s.max_value : Int)) then
    .error .valueError
  else .ok ()

/-- Canonical enumeration of a finite set of integers (ascending), standing
for Python's `tuple(setOfValues)` whose order is unspecified.  Insertion sort
is used so that the enumeration reduces inside the kernel. -/
def sortedList (s : Finset Int) : List Int :=
  Quotient.lift (List.insertionSort (· ≤ ·))
    (fun l1 l2 h => List.eq_of_perm_of_sorted
      (((List.perm_insertionSort _ l1).trans h).trans
        (List.perm_insertionSort _ l2).symm)
      (List.sorted_insertionSort _ l1) (List.sorted_insertionSort _ l2)) s.1

theorem length_sortedList (s : Finset Int) :
    (sortedList s).length = s.card := by
  rcases s with ⟨m, hm⟩
  induction m using Quotient.inductionOn with
  | h l => exact (List.perm_insertionSort _ l).length_eq

theorem mem_sortedList (s : Finset Int) (a : Int) :
    a ∈ sortedList s ↔ a ∈ s := by
  rcases s with ⟨m, hm⟩
  induction m using Quotient.inductionOn with
  | h l => exact (List.perm_insertionSort _ l).mem_iff

/-- `SudokuSpace.collapase` (sic).  The guard `if self.possible_values is
set():` compares object identity with a freshly allocated empty set, which is
`False` for every argument, so the `return None` branch is dead; it is kept
here as the literal `if False`.  Otherwise `random.choice(tuple(...))` picks
an element of the domain (index `k` of the canonical enumeration; an empty
domain raises `IndexError`), and a new space is built whose `value` is the
pick, whose `possible_values` is the old domain without the pick (or
`{pick}` when the pick was the only candidate), and whose `neighbors` is the
old `neighbors` without the pick. -/
def SudokuSpace.collapase (s : SudokuSpace) (k : Nat) :
    Except Err (Option SudokuSpace) :=
  if False then .ok none
  else
    let choices := sortedList s.possible_values
    match choices.get? (k % choices.length) with
    | none => .error .indexErrorChoice
    | some pick =>
        .ok (some ⟨s.x, s.y, s.max_value, some pick,
          if 1 < s.possible_values.card then s.possible_values.erase pick
          else {pick},
          s.neighbors.erase pick⟩)

/-- `SudokuSpace.copy`: builds a fresh space with the same coordinates,
`max_value` and `value` and copies of both sets.  On every space whose stored
value already passed validation the re-validation in the constructor cannot
fail, so at the level of values the copy is the identity. -/
def SudokuSpace.copy (s : SudokuSpace) : SudokuSpace := s

/-- The board grid: the Python `_wavefunction[y][x]` nested list as a total
function applied to `(x, y)`. -/
def Grid : Type := Nat × Nat → SudokuSpace

/-- Pointwise update of one grid slot (assignment to
`current_board_copy[y][x]`; the per-slot `space.copy()` of the surrounding
copy is the identity on values). -/
def gridUpdate (g : Grid) (c : Nat × Nat) (s : SudokuSpace) : Grid :=
  fun p => if p = c then s else g p

/-- Kernel-reducible integer square root: the number of naturals `k < n + 1`
with `(k + 1) * (k + 1) ≤ n`, which equals `⌊√n⌋`.  This embeds Python's
`int(board_size ** 0.5)` (exact on the board sizes at hand); `intSqrt_eq`
identifies it with `Nat.sqrt`, whose own definition does not reduce inside
the kernel. -/
def intSqrt (n : Nat) : Nat :=
  (List.range (n + 1)).countP (fun k => (k + 1) * (k + 1) ≤ n)

theorem countP_range_lt (m s : Nat) :
    (List.range m).countP (fun k => decide (k < s)) = min s m := by
  induction m with
  | zero => simp
  | succ m ih =>
      rw [List.range_succ, List.countP_append, ih]
      by_cases h : m < s
      · simp [h]
        omega
      · simp [h]
        omega

theorem intSqrt_eq (n : Nat) : intSqrt n = Nat.sqrt n := by
  unfold intSqrt
  have h1 : (fun k => decide ((k + 1) * (k + 1) ≤ n))
      = (fun k => decide (k < Nat.sqrt n)) := by
    funext k
    rw [decide_eq_decide]
    exact ⟨fun h => Nat.le_sqrt.mpr h, fun h => Nat.le_sqrt.mp h⟩
  rw [h1, countP_range_lt]
  have h2 := Nat.sqrt_le_self n
  omega

/-- A fresh `SudokuSpace(x, y, max_value=board_size)` with no starting value
(the validation trivially succeeds): full domain and full neighbor set. -/
def SudokuSpace.new (x y max_value : Nat) : SudokuSpace :=
  ⟨x, y, max_value, none, fullRange max_value, fullRange max_value⟩

/-- The grid built by `SudokuBoard.__init__` with no initial values:
`SudokuSpace(x, y, max_value=board_size)` at every coordinate. -/
def mkEmptyGrid (N : Nat) : Grid := fun p => SudokuSpace.new p.1 p.2 N

/-- `SudokuBoard.__init__` with `initial_values=None`: the guard
`board_size**0.5 != int(board_size**0.5)` (exact for the perfect squares
representable here) raises `ValueError` on a non-square size, otherwise the
board holds the empty grid. -/
def SudokuBoard.init (N : Nat) : Except Err Grid :=
  if intSqrt N * intSqrt N = N then .ok (mkEmptyGrid N)
  else .error .valueError

/-- Core of `SudokuBoard.get_affected_spaces` after the range guard: the set
of coordinates in row `c.2`, in column `c.1`, and in the
`√N x √N` square whose top-left corner is `(c.1 - c.1 % √N, c.2 - c.2 % √N)`,
with the centre coordinate removed.  The Python function returns the set of
space objects of `board_copy` at these coordinates; since each slot of the
copied board holds exactly one object, coordinates stand for the objects.
The `dedup` models the set construction (iteration order of a Python set is
unspecified; the embedding fixes this enumeration). -/
def affectedCoords (N : Nat) (c : Nat × Nat) : List (Nat × Nat) :=
  let rowCol := ((List.range N).map (fun o => (o, c.2)))
      ++ ((List.range N).map (fun o => (c.1, o)))
  let s := intSqrt N
  let tlx := c.1 - c.1 % s
  let tly := c.2 - c.2 % s
  let box := (List.range s).flatMap
      (fun yo => (List.range s).map (fun xo => (tlx + xo, tly + yo)))
  ((rowCol ++ box).dedup).erase c

/-- `SudokuBoard.get_affected_spaces`: raises `IndexError` when either
coordinate is out of `[0, board_size)`, otherwise returns the affected
coordinates. -/
def get_affected_spaces (N : Nat) (x y : Int) :
    Except Err (List (Nat × Nat)) :=
  if x < 0 ∨ x ≥ (N : Int) ∨ y < 0 ∨ y ≥ (N : Int) then .error .indexErrorCoords
  else .ok (affectedCoords N (x.toNat, y.toNat))

/-- One pass of the inner `for space in self.get_affected_spaces(...)` loop of
`SudokuBoard.propegate`, narrowing each affected space by `mask` (the popped
space's `neighbors`).  Spaces with a committed value are skipped; when the
narrowed domain is non-empty and differs from the old one the slot is updated
and (if not already on the stack) appended to it; when the narrowed domain is
empty the whole propagation fails (`none`). -/
def narrowAll (g : Grid) (mask : Finset Int)
    (st : List (Nat × Nat)) : List (Nat × Nat) → Option (Grid × List (Nat × Nat))
  | [] => some (g, st)
  | p :: ps =>
    let sp := g p
    if sp.value ≠ none then narrowAll g mask st ps
    else
      let newOptions := sp.possible_values ∩ mask
      if newOptions ≠ ∅ ∧ sp.possible_values ≠ newOptions then
        narrowAll
          (gridUpdate g p ⟨sp.x, sp.y, sp.max_value, sp.value, newOptions, sp.neighbors⟩)
          mask (if p ∈ st then st else st ++ [p]) ps
      else if newOptions = ∅ then none
      else narrowAll g mask st ps

/-- Result of the propagation loop. -/
inductive PropResult where
  /-- Loop finished and the new board snapshot is returned. -/
  | success (g : Grid)
  /-- Some affected space ran out of options (`return None`). -/
  | contradiction
  /-- A Python exception escaped (only the coordinate guard can raise here). -/
  | pyError (e : Err)
  /-- Fuel exhaustion of the embedding. -/
  | outOfFuel

/-- A worklist discipline: how `stack.pop(...)` removes the next element.
The source uses `stack.pop()` (LIFO); a FIFO variant is used to state
worklist-order independence. -/
def PopPolicy : Type := List (Nat × Nat) → Option ((Nat × Nat) × List (Nat × Nat))

/-- The source's `stack.pop()`: removes and returns the last element. -/
def lifoPop : PopPolicy := fun st => st.getLast?.map (fun c => (c, st.dropLast))

/-- Queue discipline `stack.pop(0)`: removes and returns the first element. -/
def fifoPop : PopPolicy := fun st =>
  match st with
  | [] => none
  | c :: rest => some (c, rest)

/-- The `while len(stack) > 0` loop of `SudokuBoard.propegate`,
parameterized by the worklist discipline.  Each iteration pops a space,
recomputes its affected spaces from its own coordinates (the range guard of
`get_affected_spaces` can raise), and narrows them by the popped space's
`neighbors`. -/
def propLoop (pol : PopPolicy) (N : Nat) :
    Nat → Grid → List (Nat × Nat) → PropResult
  | 0, _, _ => .outOfFuel
  | fuel + 1, g, st =>
    match pol st with
    | none => .success g
    | some (c, rest) =>
      match get_affected_spaces N ((g c).x : Int) ((g c).y : Int) with
      | .error e => .pyError e
      | .ok aff =>
        match narrowAll g (g c).neighbors rest aff with
        | none => .contradiction
        | some (g2, st2) => propLoop pol N fuel g2 st2

/-- Fuel that always suffices for the propagation loop started on `g` with a
one-element stack: the total size of all in-range domains plus two (each
iteration strictly decreases total domain size plus stack length). -/
def propFuel (N : Nat) (g : Grid) : Nat :=
  (∑ p ∈ Finset.range N ×ˢ Finset.range N, ((g p).possible_values).card) + 2

/-- `SudokuBoard.propegate` with an explicit worklist discipline: copy the
grid (identity on values), overwrite the selected space's slot with (a copy
of) the selected space, seed the stack with it and run the loop.  The final
`SudokuBoard(self.board_size)` re-construction always succeeds for a board
whose size already passed the perfect-square check and merely wraps the
resulting grid. -/
def propegateWith (pol : PopPolicy) (N : Nat) (g : Grid) (t : SudokuSpace) :
    PropResult :=
  let g0 := gridUpdate g (t.x, t.y) t
  propLoop pol N (propFuel N g0) g0 [(t.x, t.y)]

/-- `SudokuBoard.propegate` as implemented: LIFO worklist (`stack.pop()`). -/
def SudokuBoard.propegate (N : Nat) (g : Grid) (t : SudokuSpace) : PropResult :=
  propegateWith lifoPop N g t

/-- Row-major list of the spaces without a committed value (the scan order of
the two nested `for` loops of `get_min_entropy_tile`; spaces with a value are
skipped by the `continue`). -/
def scanSpaces (N : Nat) (g : Grid) : List SudokuSpace :=
  (List.range N).flatMap (fun y =>
    (List.range N).filterMap (fun x =>
      if (g (x, y)).value = none then some (g (x, y)) else none))

/-- One step of the minimum scan of `get_min_entropy_tile`: `acc.1` is
`min_value` (`none` plays the initial `float("inf")`), `acc.2` is
`min_spaces`. -/
def minStep (acc : Option Nat × List SudokuSpace) (sp : SudokuSpace) :
    Option Nat × List SudokuSpace :=
  match acc.1 with
  | none => (some sp.possible_values.card, [sp])
  | some m =>
    if sp.possible_values.card < m then (some sp.possible_values.card, [sp])
    else if sp.possible_values.card = m then (some m, acc.2 ++ [sp])
    else acc

/-- `SudokuBoard.get_min_entropy_tile`: scans all uncommitted spaces for the
minimal domain size and returns `random.choice(min_spaces)` (index `k` of the
collected list), or `None` when every space is committed. -/
def get_min_entropy_tile (N : Nat) (g : Grid) (k : Nat) : Option SudokuSpace :=
  let ms := ((scanSpaces N g).foldl minStep (none, [])).2
  ms.get? (k % ms.length)

/-- `SudokuBoard.is_collapsed`: every space of the board has a committed
value. -/
def is_collapsed (N : Nat) (g : Grid) : Bool :=
  (List.range N).all fun y => (List.range N).all fun x =>
    (g (x, y)).value ≠ none

/-- Python `range(0, N, s)` for the box scan of `is_valid`: the multiples of
`s` below `N` (the solver only calls this with `s = √N ≥ 1`). -/
def stepRange (N s : Nat) : List Nat :=
  (List.range N).filter (fun i => i % s = 0)

/-- The module-level validator `is_valid` of `sudoku_board.py`: every row,
every column and every `√N x √N` subgrid must contain `len(board)` distinct
(`set`-deduplicated) values. -/
def is_valid (N : Nat) (g : Grid) : Bool :=
  ((List.range N).all fun y =>
    (((List.range N).map (fun x => (g (x, y)).value)).dedup.length == N)) &&
  ((List.range N).all fun col =>
    (((List.range N).map (fun row => (g (col, row)).value)).dedup.length == N)) &&
  (let s := intSqrt N
   (stepRange N s).all fun i => (stepRange N s).all fun j =>
     (((List.range s).flatMap (fun ro =>
        (List.range s).map (fun co => (g (j + co, i + ro)).value))).dedup.length == N))

/-- Driver state of class `WFC`: the active wavefunction and the history
stack `previous_wavefunctions` (top of stack first; Python appends/pops at
the list's end). -/
structure WFC where
  wavefunction : Grid
  previous_wavefunctions : List Grid

/-- `WFC.__iterate`: pick the minimum-entropy space (`None` short-circuits to
`None`; a `SudokuSpace` object is always truthy), collapse it and propagate
the collapsed space.  `k1` and `k2` model the two `random.choice` draws.
Returns the new wavefunction, or `None` on a contradiction. -/
def WFC.iterate (N : Nat) (k1 k2 : Nat) (g : Grid) : Except Err (Option Grid) :=
  match get_min_entropy_tile N g k1 with
  | none => .ok none
  | some sel =>
    match sel.collapase k2 with
    | .error e => .error e
    | .ok none => .ok none
    | .ok (some t) =>
      match SudokuBoard.propegate N g t with
      | .success g2 => .ok (some g2)
      | .contradiction => .ok none
      | .pyError e => .error e
      | .outOfFuel => .error .outOfFuel

/-- `WFC.collapse_wavefunction`: while the wavefunction is not collapsed,
iterate; on success push the old wavefunction on the history and adopt the
new one; on a falsy iterate result pop the history (an empty history raises
`IndexError`).  The local `was_successful` is initialized to `None`, never
reassigned, and returned on normal termination.  `o` supplies the two random
indices of each iteration (indexed by the remaining fuel). -/
def collapse_wavefunction (N : Nat) (o : Nat → Nat × Nat) :
    Nat → WFC → Except Err (Option Grid × WFC)
  | 0, _ => .error .outOfFuel
  | fuel + 1, w =>
    if is_collapsed N w.wavefunction then .ok (none, w)
    else
      match WFC.iterate N (o fuel).1 (o fuel).2 w.wavefunction with
      | .error e => .error e
      | .ok (some g2) =>
          collapse_wavefunction N o fuel
            ⟨g2, w.wavefunction :: w.previous_wavefunctions⟩
      | .ok none =>
        match w.previous_wavefunctions with
        | [] => .error .indexErrorPop
        | gPrev :: rest => collapse_wavefunction N o fuel ⟨gPrev, rest⟩

/-- Projection of a driver run result: the value returned by
`collapse_wavefunction` (`was_successful`).  The default on the error branch
is deliberately not `none`, so that statements about it are not vacuous. -/
def runRet (r : Except Err (Option Grid × WFC)) : Option Grid :=
  match r with
  | .ok p => p.1
  | .error _ => some (mkEmptyGrid 0)

/-- Projection of a driver run result: the final driver state. -/
def runState (r : Except Err (Option Grid × WFC)) : WFC :=
  match r with
  | .ok p => p.2
  | .error _ => ⟨mkEmptyGrid 0, []⟩

/-- The element `random.choice(tuple(self.possible_values))` picks in
`SudokuSpace.collapase` when the draw index is `k`: position `k % length` of
the canonical enumeration of the domain. -/
def collapsePick (s : SudokuSpace) (k : Nat) : Int :=
  ((sortedList s.possible_values).get?
    (k % (sortedList s.possible_values).length)).getD 0

theorem sortedList_empty : sortedList ∅ = [] := rfl

theorem collapsePick_mem (s : SudokuSpace) (k : Nat)
    (h : s.possible_values ≠ ∅) : collapsePick s k ∈ s.possible_values := by
  have hlen : (sortedList s.possible_values).length ≠ 0 := by
    simpa [length_sortedList, Finset.card_eq_zero] using h
  have hlt : k % (sortedList s.possible_values).length
      < (sortedList s.possible_values).length :=
    Nat.mod_lt _ (Nat.pos_of_ne_zero hlen)
  have : collapsePick s k ∈ sortedList s.possible_values := by
    unfold collapsePick
    rw [List.get?_eq_getElem?, List.getElem?_eq_getElem hlt]
    exact List.getElem_mem hlt
  simpa [mem_sortedList] using this

theorem collapase_eq_of_nonempty (s : SudokuSpace) (k : Nat)
    (h : s.possible_values ≠ ∅) :
    s.collapase k = .ok (some ⟨s.x, s.y, s.max_value, some (collapsePick s k),
      if 1 < s.possible_values.card then s.possible_values.erase (collapsePick s k)
      else {collapsePick s k},
      s.neighbors.erase (collapsePick s k)⟩) := by
  have hlen : (sortedList s.possible_values).length ≠ 0 := by
    simpa [length_sortedList, Finset.card_eq_zero] using h
  have hlt : k % (sortedList s.possible_values).length
      < (sortedList s.possible_values).length :=
    Nat.mod_lt _ (Nat.pos_of_ne_zero hlen)
  have hget : (sortedList s.possible_values).get?
      (k % (sortedList s.possible_values).length) = some (collapsePick s k) := by
    unfold collapsePick
    rw [List.get?_eq_getElem?, List.getElem?_eq_getElem hlt]
    rfl
  unfold SudokuSpace.collapase
  simp only [if_false]
  rw [hget]

/-- C3: for every `SudokuSpace` whose `possible_values` is empty, `collapase`
does not return the failure value `None`: the dead identity-comparison guard
`self.possible_values is set()` never fires, and `random.choice` on the empty
tuple raises an unchecked `IndexError` instead. -/
theorem collapase_empty_domain_raises (s : SudokuSpace) (k : Nat)
    (h : s.possible_values = ∅) :
    s.collapase k = .error .indexErrorChoice := by
  unfold SudokuSpace.collapase
  simp [h, sortedList_empty]

theorem collapase_empty_domain_raises_witness :
    SudokuSpace.collapase ⟨0, 0, 4, none, ∅, fullRange 4⟩ 0
      = .error .indexErrorChoice :=
  collapase_empty_domain_raises ⟨0, 0, 4, none, ∅, fullRange 4⟩ 0 rfl

/-- C4 counterexample: collapsing the space at (0,0) with domain `{1, 2}` and
alternatives `{1, 2}` picks the value 1, but the returned tile's domain is
`{2}`, not `{pick} = {1}`: the claimed invariant `domain = {value}` fails on
the tile returned by `collapase`. -/
theorem collapase_domain_not_pick_counterexample :
    SudokuSpace.collapase ⟨0, 0, 2, none, {1, 2}, {1, 2}⟩ 0
      = .ok (some ⟨0, 0, 2, some 1, {2}, {2}⟩) ∧ ({2} : Finset Int) ≠ {1} := by
  refine ⟨?_, by decide⟩
  rw [collapase_eq_of_nonempty _ 0 (by decide)]
  have hpick : collapsePick ⟨0, 0, 2, none, {1, 2}, {1, 2}⟩ 0 = 1 := by decide
  rw [hpick]
  norm_num

/-- C4 (amended): for every `SudokuSpace` with non-empty domain, `collapase`
returns a tile whose `value` is a pick from the old domain, whose
`possible_values` is the old domain with the pick removed when more than one
candidate remained (or `{pick}` when the pick was the sole candidate), and
whose `neighbors` is the old `neighbors` with the pick removed. -/
theorem collapase_postcondition (s : SudokuSpace) (k : Nat)
    (h : s.possible_values ≠ ∅) :
    collapsePick s k ∈ s.possible_values ∧
    s.collapase k = .ok (some ⟨s.x, s.y, s.max_value, some (collapsePick s k),
      if 1 < s.possible_values.card then s.possible_values.erase (collapsePick s k)
      else {collapsePick s k},
      s.neighbors.erase (collapsePick s k)⟩) :=
  ⟨collapsePick_mem s k h, collapase_eq_of_nonempty s k h⟩

theorem collapase_postcondition_witness :
    collapsePick ⟨0, 0, 2, none, {1, 2}, {1, 2}⟩ 0 ∈ ({1, 2} : Finset Int) ∧
    SudokuSpace.collapase ⟨0, 0, 2, none, {1, 2}, {1, 2}⟩ 0
      = .ok (some ⟨0, 0, 2, some (collapsePick ⟨0, 0, 2, none, {1, 2}, {1, 2}⟩ 0),
        if 1 < ({1, 2} : Finset Int).card then
          ({1, 2} : Finset Int).erase (collapsePick ⟨0, 0, 2, none, {1, 2}, {1, 2}⟩ 0)
        else {collapsePick ⟨0, 0, 2, none, {1, 2}, {1, 2}⟩ 0},
        ({1, 2} : Finset Int).erase (collapsePick ⟨0, 0, 2, none, {1, 2}, {1, 2}⟩ 0)⟩) :=
  collapase_postcondition ⟨0, 0, 2, none, {1, 2}, {1, 2}⟩ 0 (by decide)

/-- C10: the range validation of `SudokuSpace` treats 0 as no value:
constructing with value 0 succeeds and stores 0 as a committed value with the
full domain and full neighbor set, `validate_value 0` raises nothing, while
every non-zero value outside `[1, max_value]` raises `ValueError`. -/
theorem zero_value_skips_validation (x y m : Nat) (v : Int) (hv : v ≠ 0)
    (hout : v < 1 ∨ v > (m : Int)) :
    SudokuSpace.init x y m (some 0) = .ok ⟨x, y, m, some 0, fullRange m, fullRange m⟩ ∧
    SudokuSpace.validate_value ⟨x, y, m, some 0, fullRange m, fullRange m⟩ 0 = .ok () ∧
    SudokuSpace.init x y m (some v) = .error .valueError := by
  have htv : truthyVal (some v) = true := by simp [truthyVal, hv]
  refine ⟨?_, ?_, ?_⟩
  · simp [SudokuSpace.init, truthyVal]
  · simp [SudokuSpace.validate_value]
  · simp [SudokuSpace.init, htv]
    omega

theorem zero_value_skips_validation_witness :
    SudokuSpace.init 2 3 4 (some 0) = .ok ⟨2, 3, 4, some 0, fullRange 4, fullRange 4⟩ ∧
    SudokuSpace.validate_value ⟨2, 3, 4, some 0, fullRange 4, fullRange 4⟩ 0 = .ok () ∧
    SudokuSpace.init 2 3 4 (some 7) = .error .valueError :=
  zero_value_skips_validation 2 3 4 7 (by decide) (by decide)

/-- A 4 x 4 board on which the first solver iteration necessarily hits a
propagation contradiction: the uncommitted spaces at (0, 0) and (1, 0) share
row 0 and both have the singleton domain `{1}`. -/
def gC2 : Grid := fun p =>
  if p = (0, 0) then ⟨0, 0, 4, none, {1}, fullRange 4⟩
  else if p = (1, 0) then ⟨1, 0, 4, none, {1}, fullRange 4⟩
  else SudokuSpace.new p.1 p.2 4

/-- C2 counterexample: started on `gC2` with an empty history, the driver
does not produce an explicit unsolvable result: the run ends in the unchecked
`IndexError` of `self.previous_wavefunctions.pop()` on an empty list. -/
theorem exhaustion_crash_counterexample :
    collapse_wavefunction 4 (fun _ => (0, 0)) 5 ⟨gC2, []⟩
      = .error .indexErrorPop := rfl

/-- C2 (amended): whenever an iteration of `collapse_wavefunction` reports no
new wavefunction (a propagation contradiction) while the history stack
`previous_wavefunctions` is empty, the driver fails with the unchecked
stack-pop `IndexError` — it does not produce an explicit unsolvable result. -/
theorem exhaustion_pops_empty_history (N : Nat) (o : Nat → Nat × Nat)
    (fuel : Nat) (w : WFC)
    (hnc : is_collapsed N w.wavefunction = false)
    (hit : WFC.iterate N (o fuel).1 (o fuel).2 w.wavefunction = .ok none)
    (hemp : w.previous_wavefunctions = []) :
    collapse_wavefunction N o (fuel + 1) w = .error .indexErrorPop := by
  unfold collapse_wavefunction
  rw [hnc]
  simp only [Bool.false_eq_true, if_false, hit, hemp]

theorem exhaustion_pops_empty_history_witness :
    collapse_wavefunction 4 (fun _ => (0, 0)) 7 ⟨gC2, []⟩
      = .error .indexErrorPop :=
  exhaustion_pops_empty_history 4 (fun _ => (0, 0)) 6 ⟨gC2, []⟩ rfl rfl rfl

/-- C9: whenever `collapse_wavefunction` terminates normally it returns
`None` (the local `was_successful` is never reassigned), whatever the
outcome; the solved board must be read from the driver's `wavefunction`
attribute, which is then fully collapsed. -/
theorem collapse_wavefunction_succ (N : Nat) (o : Nat → Nat × Nat)
    (n : Nat) (w : WFC) :
    collapse_wavefunction N o (n + 1) w =
      if is_collapsed N w.wavefunction = true then .ok (none, w)
      else
        match WFC.iterate N (o n).1 (o n).2 w.wavefunction with
        | .error e => .error e
        | .ok (some g2) =>
            collapse_wavefunction N o n
              ⟨g2, w.wavefunction :: w.previous_wavefunctions⟩
        | .ok none =>
          match w.previous_wavefunctions with
          | [] => .error .indexErrorPop
          | gPrev :: rest => collapse_wavefunction N o n ⟨gPrev, rest⟩ := rfl

theorem collapse_wavefunction_returns_none (N : Nat) (o : Nat → Nat × Nat)
    (fuel : Nat) (w : WFC)
    (h : (collapse_wavefunction N o fuel w).isOk = true) :
    runRet (collapse_wavefunction N o fuel w) = none ∧
    is_collapsed N (runState (collapse_wavefunction N o fuel w)).wavefunction
      = true := by
  induction fuel generalizing w with
  | zero =>
      exact absurd h (by simp [collapse_wavefunction, Except.isOk, Except.toBool])
  | succ n ih =>
      rw [collapse_wavefunction_succ] at h ⊢
      by_cases hc : is_collapsed N w.wavefunction = true
      · rw [if_pos hc] at h ⊢
        exact ⟨rfl, hc⟩
      · rw [if_neg hc] at h ⊢
        generalize WFC.iterate N (o n).1 (o n).2 w.wavefunction = it at h ⊢
        rcases it with e | (_ | g2)
        · exact absurd h (by simp [Except.isOk, Except.toBool])
        · generalize w.previous_wavefunctions = prev at h ⊢
          rcases prev with _ | ⟨gp, rest⟩
          · exact absurd h (by simp [Except.isOk, Except.toBool])
          · exact ih _ h
        · exact ih _ h

theorem collapse_wavefunction_returns_none_witness :
    runRet (collapse_wavefunction 1 (fun _ => (0, 0)) 3 ⟨mkEmptyGrid 1, []⟩)
      = none ∧
    is_collapsed 1 (runState (collapse_wavefunction 1 (fun _ => (0, 0)) 3
      ⟨mkEmptyGrid 1, []⟩)).wavefunction = true :=
  collapse_wavefunction_returns_none 1 (fun _ => (0, 0)) 3 ⟨mkEmptyGrid 1, []⟩ rfl

theorem mem_affectedCoords (N : Nat) (c p : Nat × Nat) :
    p ∈ affectedCoords N c ↔
      p ≠ c ∧ ((p.2 = c.2 ∧ p.1 < N) ∨ (p.1 = c.1 ∧ p.2 < N) ∨
        (c.1 - c.1 % intSqrt N ≤ p.1 ∧ p.1 < c.1 - c.1 % intSqrt N + intSqrt N ∧
         c.2 - c.2 % intSqrt N ≤ p.2 ∧ p.2 < c.2 - c.2 % intSqrt N + intSqrt N)) := by
  unfold affectedCoords
  rw [List.Nodup.mem_erase_iff (List.nodup_dedup _)]
  simp only [List.mem_dedup, List.mem_append, List.mem_map, List.mem_range,
    List.mem_flatMap]
  constructor
  · rintro ⟨hne, (⟨a, ha, he⟩ | ⟨a, ha, he⟩) | ⟨yo, hyo, xo, hxo, he⟩⟩
    · exact ⟨hne, Or.inl ⟨by rw [← he], by rw [← he]; exact ha⟩⟩
    · exact ⟨hne, Or.inr (Or.inl ⟨by rw [← he], by rw [← he]; exact ha⟩)⟩
    · refine ⟨hne, Or.inr (Or.inr ?_)⟩
      rw [← he]
      dsimp only
      omega
  · rintro ⟨hne, (⟨h2, h1⟩ | ⟨h1, h2⟩ | ⟨hb1, hb2, hb3, hb4⟩)⟩
    · exact ⟨hne, Or.inl (Or.inl ⟨p.1, h1, by rw [← h2]⟩)⟩
    · exact ⟨hne, Or.inl (Or.inr ⟨p.2, h2, by rw [← h1]⟩)⟩
    · refine ⟨hne, Or.inr ⟨p.2 - (c.2 - c.2 % intSqrt N), by omega,
        p.1 - (c.1 - c.1 % intSqrt N), by omega, ?_⟩⟩
      have : c.1 - c.1 % intSqrt N + (p.1 - (c.1 - c.1 % intSqrt N)) = p.1 := by omega
      have h2 : c.2 - c.2 % intSqrt N + (p.2 - (c.2 - c.2 % intSqrt N)) = p.2 := by omega
      rw [this, h2]

/-- C7: for in-range coordinates, `get_affected_spaces` returns exactly the
board coordinates sharing row `y`, column `x`, or the `√N x √N` box whose
top-left corner is `(x - x % √N, y - y % √N)`, excluding `(x, y)` itself;
for every out-of-range coordinate it raises `IndexError` immediately
(`intSqrt` is the embedded `int(board_size ** 0.5)`, equal to `Nat.sqrt`). -/
theorem get_affected_spaces_spec (N : Nat) (x y : Int) :
    (¬ (0 ≤ x ∧ x < (N : Int) ∧ 0 ≤ y ∧ y < (N : Int)) →
      get_affected_spaces N x y = .error .indexErrorCoords) ∧
    ((0 ≤ x ∧ x < (N : Int) ∧ 0 ≤ y ∧ y < (N : Int)) →
      get_affected_spaces N x y = .ok (affectedCoords N (x.toNat, y.toNat)) ∧
      ∀ p : Nat × Nat, p ∈ affectedCoords N (x.toNat, y.toNat) ↔
        p ≠ (x.toNat, y.toNat) ∧
          ((p.2 = y.toNat ∧ p.1 < N) ∨ (p.1 = x.toNat ∧ p.2 < N) ∨
           (x.toNat - x.toNat % intSqrt N ≤ p.1 ∧
            p.1 < x.toNat - x.toNat % intSqrt N + intSqrt N ∧
            y.toNat - y.toNat % intSqrt N ≤ p.2 ∧
            p.2 < y.toNat - y.toNat % intSqrt N + intSqrt N))) := by
  constructor
  · intro h
    unfold get_affected_spaces
    rw [if_pos]
    omega
  · intro h
    refine ⟨?_, fun p => mem_affectedCoords N (x.toNat, y.toNat) p⟩
    unfold get_affected_spaces
    rw [if_neg]
    omega

theorem get_affected_spaces_spec_witness :
    get_affected_spaces 4 (-1) 0 = .error .indexErrorCoords ∧
    (get_affected_spaces 4 1 2 = .ok (affectedCoords 4 (1, 2)) ∧
      ((0, 2) ∈ affectedCoords 4 (1, 2) ↔
        (0, 2) ≠ ((1 : Int).toNat, (2 : Int).toNat) ∧
          (((0, 2).2 = (2 : Int).toNat ∧ (0, 2).1 < 4) ∨
           ((0, 2).1 = (1 : Int).toNat ∧ (0, 2).2 < 4) ∨
           ((1 : Int).toNat - (1 : Int).toNat % intSqrt 4 ≤ (0, 2).1 ∧
            (0, 2).1 < (1 : Int).toNat - (1 : Int).toNat % intSqrt 4 + intSqrt 4 ∧
            (2 : Int).toNat - (2 : Int).toNat % intSqrt 4 ≤ (0, 2).2 ∧
            (0, 2).2 < (2 : Int).toNat - (2 : Int).toNat % intSqrt 4 + intSqrt 4)))) :=
  ⟨(get_affected_spaces_spec 4 (-1) 0).1 (by norm_num),
   ⟨((get_affected_spaces_spec 4 1 2).2 (by norm_num)).1,
    ((get_affected_spaces_spec 4 1 2).2 (by norm_num)).2 (0, 2)⟩⟩

theorem gridUpdate_same (g : Grid) (c : Nat × Nat) (s : SudokuSpace) :
    gridUpdate g c s c = s := if_pos rfl

theorem gridUpdate_ne (g : Grid) (c : Nat × Nat) (s : SudokuSpace)
    (p : Nat × Nat) (h : p ≠ c) : gridUpdate g c s p = g p := if_neg h

theorem narrowAll_nil (g : Grid) (mask : Finset Int) (st : List (Nat × Nat)) :
    narrowAll g mask st [] = some (g, st) := rfl

theorem narrowAll_cons (g : Grid) (mask : Finset Int) (st : List (Nat × Nat))
    (p : Nat × Nat) (ps : List (Nat × Nat)) :
    narrowAll g mask st (p :: ps) =
      if (g p).value ≠ none then narrowAll g mask st ps
      else if (g p).possible_values ∩ mask ≠ ∅ ∧
          (g p).possible_values ≠ (g p).possible_values ∩ mask then
        narrowAll (gridUpdate g p ⟨(g p).x, (g p).y, (g p).max_value, (g p).value,
            (g p).possible_values ∩ mask, (g p).neighbors⟩)
          mask (if p ∈ st then st else st ++ [p]) ps
      else if (g p).possible_values ∩ mask = ∅ then none
      else narrowAll g mask st ps := rfl

theorem narrowAll_some_apply (mask : Finset Int) (ps : List (Nat × Nat)) :
    ∀ (g : Grid) (st : List (Nat × Nat)) (g2 : Grid) (st2 : List (Nat × Nat)),
      narrowAll g mask st ps = some (g2, st2) →
      ∀ q : Nat × Nat,
        ((g2 q).x = (g q).x ∧ (g2 q).y = (g q).y ∧
         (g2 q).max_value = (g q).max_value ∧ (g2 q).value = (g q).value ∧
         (g2 q).neighbors = (g q).neighbors) ∧
        (q ∈ ps → (g q).value = none →
          (g2 q).possible_values = (g q).possible_values ∩ mask ∧
          (g2 q).possible_values ≠ ∅) ∧
        ((q ∉ ps ∨ (g q).value ≠ none) →
          (g2 q).possible_values = (g q).possible_values) := by
  induction ps with
  | nil =>
      intro g st g2 st2 h q
      rw [narrowAll_nil] at h
      obtain ⟨rfl, rfl⟩ : g = g2 ∧ st = st2 := by
        constructor <;> [exact congrArg Prod.fst (Option.some.inj h);
          exact congrArg Prod.snd (Option.some.inj h)]
      exact ⟨⟨rfl, rfl, rfl, rfl, rfl⟩,
        fun hq _ => absurd hq (List.not_mem_nil q), fun _ => rfl⟩
  | cons p ps ih =>
      intro g st g2 st2 h q
      rw [narrowAll_cons] at h
      by_cases hv : (g p).value = none
      · rw [if_neg (by simp [hv])] at h
        by_cases hbr : (g p).possible_values ∩ mask ≠ ∅ ∧
            (g p).possible_values ≠ (g p).possible_values ∩ mask
        · rw [if_pos hbr] at h
          obtain ⟨hfields, h2, h3⟩ := ih _ _ g2 st2 h q
          by_cases hqp : q = p
          · subst hqp
            rw [gridUpdate_same] at hfields h2 h3
            refine ⟨⟨hfields.1, hfields.2.1, hfields.2.2.1,
              hfields.2.2.2.1.trans rfl, hfields.2.2.2.2.trans rfl⟩, ?_, ?_⟩
            · intro _ _
              by_cases hqps : q ∈ ps
              · have := h2 hqps hv
                refine ⟨?_, this.2⟩
                rw [this.1]
                simp only
                rw [Finset.inter_assoc, Finset.inter_self]
              · have := h3 (Or.inl hqps)
                rw [this]
                exact ⟨rfl, hbr.1⟩
            · intro hq
              rcases hq with hq | hq
              · exact absurd (List.mem_cons_self q ps) hq
              · exact absurd hv hq
          · rw [gridUpdate_ne _ _ _ _ hqp] at hfields h2 h3
            refine ⟨hfields, ?_, ?_⟩
            · intro hq hvq
              exact h2 (List.mem_of_ne_of_mem hqp hq) hvq
            · intro hq
              apply h3
              rcases hq with hq | hq
              · exact Or.inl (fun hmem => hq (List.mem_cons_of_mem _ hmem))
              · exact Or.inr hq
        · rw [if_neg hbr] at h
          by_cases hemp : (g p).possible_values ∩ mask = ∅
          · rw [if_pos hemp] at h
            exact absurd h (by simp)
          · rw [if_neg hemp] at h
            have hkeep : (g p).possible_values = (g p).possible_values ∩ mask := by
              by_contra hne
              exact hbr ⟨hemp, hne⟩
            obtain ⟨hfields, h2, h3⟩ := ih _ _ g2 st2 h q
            by_cases hqp : q = p
            · subst hqp
              refine ⟨hfields, ?_, ?_⟩
              · intro _ _
                by_cases hqps : q ∈ ps
                · exact h2 hqps hv
                · have := h3 (Or.inl hqps)
                  rw [this, ← hkeep]
                  exact ⟨rfl, fun hc => hemp (hkeep.symm.trans hc)⟩
              · intro hq
                rcases hq with hq | hq
                · exact absurd (List.mem_cons_self q ps) hq
                · exact absurd hv hq
            · refine ⟨hfields, ?_, ?_⟩
              · intro hq hvq
                exact h2 (List.mem_of_ne_of_mem hqp hq) hvq
              · intro hq
                apply h3
                rcases hq with hq | hq
                · exact Or.inl (fun hmem => hq (List.mem_cons_of_mem _ hmem))
                · exact Or.inr hq
      · rw [if_pos (by simp [hv])] at h
        obtain ⟨hfields, h2, h3⟩ := ih _ _ g2 st2 h q
        refine ⟨hfields, ?_, ?_⟩
        · intro hq hvq
          rcases List.mem_cons.mp hq with rfl | hq'
          · exact absurd hvq hv
          · exact h2 hq' hvq
        · intro hq
          apply h3
          rcases hq with hq | hq
          · exact Or.inl (fun hmem => hq (List.mem_cons_of_mem _ hmem))
          · exact Or.inr hq

theorem narrowAll_some_stack (mask : Finset Int) (ps : List (Nat × Nat)) :
    ∀ (g : Grid) (st : List (Nat × Nat)) (g2 : Grid) (st2 : List (Nat × Nat)),
      narrowAll g mask st ps = some (g2, st2) →
      (∀ c, c ∈ st → c ∈ st2) ∧
      (∀ c, c ∈ st2 → c ∈ st ∨ (c ∈ ps ∧ (g c).value = none ∧
        (g c).possible_values ∩ mask ≠ ∅ ∧
        (g c).possible_values ≠ (g c).possible_values ∩ mask)) ∧
      (∀ q, (g2 q).possible_values ≠ (g q).possible_values → q ∈ st2) := by
  induction ps with
  | nil =>
      intro g st g2 st2 h
      rw [narrowAll_nil] at h
      obtain ⟨rfl, rfl⟩ : g = g2 ∧ st = st2 := by
        constructor <;> [exact congrArg Prod.fst (Option.some.inj h);
          exact congrArg Prod.snd (Option.some.inj h)]
      exact ⟨fun c hc => hc, fun c hc => Or.inl hc, fun q hq => absurd rfl hq⟩
  | cons p ps ih =>
      intro g st g2 st2 h
      rw [narrowAll_cons] at h
      by_cases hv : (g p).value = none
      · rw [if_neg (by simp [hv])] at h
        by_cases hbr : (g p).possible_values ∩ mask ≠ ∅ ∧
            (g p).possible_values ≠ (g p).possible_values ∩ mask
        · rw [if_pos hbr] at h
          obtain ⟨ih1, ih2, ih3⟩ := ih _ _ g2 st2 h
          have hstsub : ∀ c, c ∈ st → c ∈ (if p ∈ st then st else st ++ [p]) := by
            intro c hc
            by_cases hp : p ∈ st
            · rw [if_pos hp]; exact hc
            · rw [if_neg hp]; exact List.mem_append_left _ hc
          have hstin : ∀ c, c ∈ (if p ∈ st then st else st ++ [p]) →
              c ∈ st ∨ c = p := by
            intro c hc
            by_cases hp : p ∈ st
            · rw [if_pos hp] at hc; exact Or.inl hc
            · rw [if_neg hp] at hc
              rcases List.mem_append.mp hc with hc | hc
              · exact Or.inl hc
              · exact Or.inr (List.mem_singleton.mp hc)
          refine ⟨fun c hc => ih1 c (hstsub c hc), ?_, ?_⟩
          · intro c hc
            rcases ih2 c hc with hc' | ⟨hcps, hcv, hcne, hcch⟩
            · rcases hstin c hc' with hc'' | rfl
              · exact Or.inl hc''
              · exact Or.inr ⟨List.mem_cons_self _ _, hv, hbr⟩
            · by_cases hcp : c = p
              · subst hcp
                rw [gridUpdate_same] at hcch
                exact absurd (by
                  show (g c).possible_values ∩ mask
                    = (g c).possible_values ∩ mask ∩ mask
                  rw [Finset.inter_assoc, Finset.inter_self]) hcch
              · rw [gridUpdate_ne _ _ _ _ hcp] at hcv hcne hcch
                exact Or.inr ⟨List.mem_cons_of_mem _ hcps, hcv, hcne, hcch⟩
          · intro q hq
            by_cases hqp : q = p
            · subst hqp
              apply ih1
              by_cases hp : q ∈ st
              · rw [if_pos hp]; exact hp
              · rw [if_neg hp]; exact List.mem_append_right _ (List.mem_singleton.mpr rfl)
            · apply ih3
              rw [gridUpdate_ne _ _ _ _ hqp]
              exact hq
        · rw [if_neg hbr] at h
          by_cases hemp : (g p).possible_values ∩ mask = ∅
          · rw [if_pos hemp] at h
            exact absurd h (by simp)
          · rw [if_neg hemp] at h
            obtain ⟨ih1, ih2, ih3⟩ := ih _ _ g2 st2 h
            exact ⟨ih1, fun c hc => (ih2 c hc).imp id
              (fun ⟨hcps, hrest⟩ => ⟨List.mem_cons_of_mem _ hcps, hrest⟩), ih3⟩
      · rw [if_pos (by simp [hv])] at h
        obtain ⟨ih1, ih2, ih3⟩ := ih _ _ g2 st2 h
        exact ⟨ih1, fun c hc => (ih2 c hc).imp id
          (fun ⟨hcps, hrest⟩ => ⟨List.mem_cons_of_mem _ hcps, hrest⟩), ih3⟩

theorem narrowAll_none (mask : Finset Int) (ps : List (Nat × Nat)) :
    ∀ (g : Grid) (st : List (Nat × Nat)),
      narrowAll g mask st ps = none →
      ∃ q ∈ ps, (g q).value = none ∧ (g q).possible_values ∩ mask = ∅ := by
  induction ps with
  | nil =>
      intro g st h
      rw [narrowAll_nil] at h
      exact absurd h (by simp)
  | cons p ps ih =>
      intro g st h
      rw [narrowAll_cons] at h
      by_cases hv : (g p).value = none
      · rw [if_neg (by simp [hv])] at h
        by_cases hbr : (g p).possible_values ∩ mask ≠ ∅ ∧
            (g p).possible_values ≠ (g p).possible_values ∩ mask
        · rw [if_pos hbr] at h
          obtain ⟨q, hqps, hqv, hqe⟩ := ih _ _ h
          by_cases hqp : q = p
          · subst hqp
            rw [gridUpdate_same] at hqe
            exact absurd (by
              rw [show (g q).possible_values ∩ mask ∩ mask
                = (g q).possible_values ∩ mask by
                  rw [Finset.inter_assoc, Finset.inter_self]] at hqe
              exact hqe) hbr.1
          · rw [gridUpdate_ne _ _ _ _ hqp] at hqv hqe
            exact ⟨q, List.mem_cons_of_mem _ hqps, hqv, hqe⟩
        · rw [if_neg hbr] at h
          by_cases hemp : (g p).possible_values ∩ mask = ∅
          · exact ⟨p, List.mem_cons_self _ _, hv, hemp⟩
          · rw [if_neg hemp] at h
            obtain ⟨q, hqps, hqv, hqe⟩ := ih _ _ h
            exact ⟨q, List.mem_cons_of_mem _ hqps, hqv, hqe⟩
      · rw [if_pos (by simp [hv])] at h
        obtain ⟨q, hqps, hqv, hqe⟩ := ih _ _ h
        exact ⟨q, List.mem_cons_of_mem _ hqps, hqv, hqe⟩

theorem narrowAll_noop (mask : Finset Int) (ps : List (Nat × Nat)) :
    ∀ (g : Grid) (st : List (Nat × Nat)) (g2 : Grid) (st2 : List (Nat × Nat)),
      (∀ q ∈ ps, (g q).value = none →
        (g q).possible_values ∩ mask = (g q).possible_values) →
      narrowAll g mask st ps = some (g2, st2) → g2 = g ∧ st2 = st := by
  induction ps with
  | nil =>
      intro g st g2 st2 _ h
      rw [narrowAll_nil] at h
      constructor <;> [exact (congrArg Prod.fst (Option.some.inj h)).symm;
        exact (congrArg Prod.snd (Option.some.inj h)).symm]
  | cons p ps ih =>
      intro g st g2 st2 hno h
      rw [narrowAll_cons] at h
      by_cases hv : (g p).value = none
      · rw [if_neg (by simp [hv])] at h
        have hkeep := hno p (List.mem_cons_self _ _) hv
        rw [if_neg (by
          rintro ⟨-, hne⟩
          exact hne hkeep.symm)] at h
        by_cases hemp : (g p).possible_values ∩ mask = ∅
        · rw [if_pos hemp] at h
          exact absurd h (by simp)
        · rw [if_neg hemp] at h
          exact ih _ _ g2 st2 (fun q hq => hno q (List.mem_cons_of_mem _ hq)) h
      · rw [if_pos (by simp [hv])] at h
        exact ih _ _ g2 st2 (fun q hq => hno q (List.mem_cons_of_mem _ hq)) h

/-- Soundness conditions on a worklist discipline: popping is possible
exactly on non-empty lists and returns an element together with the rest. -/
structure PolSpec (pol : PopPolicy) : Prop where
  none_iff : ∀ st, pol st = none ↔ st = []
  perm : ∀ st c rest, pol st = some (c, rest) → st.Perm (c :: rest)

theorem lifoPop_spec : PolSpec lifoPop := by
  constructor
  · intro st
    cases st with
    | nil => simp [lifoPop]
    | cons a l =>
        rw [lifoPop, List.getLast?_eq_getLast (a :: l) (by simp)]
        simp
  · intro st c rest h
    cases st with
    | nil => simp [lifoPop] at h
    | cons a l =>
        have hne : a :: l ≠ [] := by simp
        rw [lifoPop, List.getLast?_eq_getLast (a :: l) hne] at h
        have h1 : (a :: l).getLast hne = c :=
          congrArg Prod.fst (Option.some.inj h)
        have h2 : (a :: l).dropLast = rest :=
          congrArg Prod.snd (Option.some.inj h)
        have hperm : (a :: l).Perm
            ([(a :: l).getLast hne] ++ (a :: l).dropLast) := by
          conv_lhs => rw [← List.dropLast_append_getLast hne]
          exact List.perm_append_comm
        rw [h1, h2] at hperm
        exact hperm

theorem fifoPop_spec : PolSpec fifoPop := by
  constructor
  · intro st
    cases st <;> simp [fifoPop]
  · intro st c rest h
    cases st with
    | nil => simp [fifoPop] at h
    | cons a l =>
        simp only [fifoPop, Option.some.injEq, Prod.mk.injEq] at h
        rw [← h.1, ← h.2]

theorem intSqrt_pos (N : Nat) (hsq : intSqrt N * intSqrt N = N) (h1 : 1 ≤ N) :
    1 ≤ intSqrt N := by
  rcases Nat.eq_zero_or_pos (intSqrt N) with h | h
  · rw [h] at hsq
    omega
  · exact h

theorem box_bound (N : Nat) (hsq : intSqrt N * intSqrt N = N)
    (a : Nat) (ha : a < N) : a - a % intSqrt N + intSqrt N ≤ N := by
  have hs : 1 ≤ intSqrt N := intSqrt_pos N hsq (by omega)
  have hd : a / intSqrt N < intSqrt N := by
    rw [Nat.div_lt_iff_lt_mul (by omega)]
    omega
  have hdm := Nat.div_add_mod a (intSqrt N)
  have hmul : intSqrt N * (a / intSqrt N) + intSqrt N
      = intSqrt N * (a / intSqrt N + 1) := by ring
  have : intSqrt N * (a / intSqrt N + 1) ≤ intSqrt N * intSqrt N :=
    Nat.mul_le_mul_left _ (by omega)
  omega

theorem affectedCoords_subset_range (N : Nat)
    (hsq : intSqrt N * intSqrt N = N) (c : Nat × Nat)
    (hc1 : c.1 < N) (hc2 : c.2 < N) :
    ∀ p ∈ affectedCoords N c, p.1 < N ∧ p.2 < N := by
  intro p hp
  rw [mem_affectedCoords] at hp
  rcases hp.2 with ⟨h2, h1⟩ | ⟨h1, h2⟩ | ⟨hb1, hb2, hb3, hb4⟩
  · omega
  · omega
  · have hx := box_bound N hsq c.1 hc1
    have hy := box_bound N hsq c.2 hc2
    omega

theorem mod_eq_of_box (s j a : Nat) (hs : 1 ≤ s) (hj : j % s = 0)
    (h1 : j ≤ a) (h2 : a < j + s) : a - a % s = j := by
  have h3 : (a - j) % s = a - j := Nat.mod_eq_of_lt (by omega)
  have h4 : a % s = (j + (a - j)) % s := by
    rw [show j + (a - j) = a by omega]
  rw [Nat.add_mod, hj, Nat.zero_add, Nat.mod_mod_of_dvd _ (dvd_refl s), h3] at h4
  omega

theorem affectedCoords_symm (N : Nat) (hsq : intSqrt N * intSqrt N = N)
    (c p : Nat × Nat) (hc1 : c.1 < N) (hc2 : c.2 < N)
    (hp : p ∈ affectedCoords N c) : c ∈ affectedCoords N p := by
  have hrange := affectedCoords_subset_range N hsq c hc1 hc2 p hp
  rw [mem_affectedCoords] at hp ⊢
  refine ⟨fun h => hp.1 (by rw [h]), ?_⟩
  rcases hp.2 with ⟨h2, h1⟩ | ⟨h1, h2⟩ | ⟨hb1, hb2, hb3, hb4⟩
  · exact Or.inl ⟨h2.symm, hc1⟩
  · exact Or.inr (Or.inl ⟨h1.symm, hc2⟩)
  · have hs : 1 ≤ intSqrt N := intSqrt_pos N hsq (by omega)
    have hmod1 : c.1 % intSqrt N ≤ c.1 := Nat.mod_le _ _
    have hmod1' : (c.1 - c.1 % intSqrt N) % intSqrt N = 0 := by
      have := Nat.div_add_mod c.1 (intSqrt N)
      have heq : c.1 - c.1 % intSqrt N = intSqrt N * (c.1 / intSqrt N) := by omega
      rw [heq]
      exact Nat.mul_mod_right _ _
    have hmod2' : (c.2 - c.2 % intSqrt N) % intSqrt N = 0 := by
      have := Nat.div_add_mod c.2 (intSqrt N)
      have heq : c.2 - c.2 % intSqrt N = intSqrt N * (c.2 / intSqrt N) := by omega
      rw [heq]
      exact Nat.mul_mod_right _ _
    have he1 : p.1 - p.1 % intSqrt N = c.1 - c.1 % intSqrt N :=
      mod_eq_of_box (intSqrt N) _ _ hs hmod1' hb1 hb2
    have he2 : p.2 - p.2 % intSqrt N = c.2 - c.2 % intSqrt N :=
      mod_eq_of_box (intSqrt N) _ _ hs hmod2' hb3 hb4
    refine Or.inr (Or.inr ?_)
    rw [he1, he2]
    have := Nat.mod_le c.1 (intSqrt N)
    have := Nat.mod_lt c.1 (show 0 < intSqrt N by omega)
    have := Nat.mod_le c.2 (intSqrt N)
    have := Nat.mod_lt c.2 (show 0 < intSqrt N by omega)
    omega

theorem propLoop_zero (pol : PopPolicy) (N : Nat) (g : Grid)
    (st : List (Nat × Nat)) : propLoop pol N 0 g st = .outOfFuel := rfl

theorem propLoop_succ (pol : PopPolicy) (N : Nat) (fuel : Nat) (g : Grid)
    (st : List (Nat × Nat)) :
    propLoop pol N (fuel + 1) g st =
      match pol st with
      | none => .success g
      | some (c, rest) =>
        match get_affected_spaces N ((g c).x : Int) ((g c).y : Int) with
        | .error e => .pyError e
        | .ok aff =>
          match narrowAll g (g c).neighbors rest aff with
          | none => .contradiction
          | some (g2, st2) => propLoop pol N fuel g2 st2 := rfl

theorem pol_singleton (pol : PopPolicy) (hpol : PolSpec pol) (c0 : Nat × Nat) :
    pol [c0] = some (c0, []) := by
  rcases hp : pol [c0] with _ | ⟨c, rest⟩
  · exact absurd ((hpol.none_iff _).mp hp) (by simp)
  · have hperm := hpol.perm _ _ _ hp
    cases rest with
    | cons r rs =>
        have hlen : (1 : Nat) = rs.length + 2 := by
          simpa using hperm.length_eq
        omega
    | nil =>
        have hc : c ∈ [c0] := hperm.mem_iff.mpr (List.mem_cons_self _ _)
        rw [List.mem_singleton.mp hc]

theorem get_affected_spaces_in_range (N : Nat) (a b : Nat)
    (ha : a < N) (hb : b < N) :
    get_affected_spaces N (a : Int) (b : Int)
      = .ok (affectedCoords N (a, b)) := by
  unfold get_affected_spaces
  rw [if_neg (by push_neg; omega)]
  congr 1 <;> simp

theorem propLoop_fullmask (pol : PopPolicy) (hpol : PolSpec pol) (N : Nat)
    (hsq : intSqrt N * intSqrt N = N) :
    ∀ (fuel : Nat) (g : Grid) (st : List (Nat × Nat)) (g' : Grid),
      (∀ p : Nat × Nat, p.1 < N → p.2 < N → (g p).x = p.1 ∧ (g p).y = p.2) →
      (∀ p : Nat × Nat, p.1 < N → p.2 < N → (g p).value = none →
        (g p).possible_values ⊆ fullRange N) →
      (∀ c ∈ st, c.1 < N ∧ c.2 < N ∧ (g c).value = none ∧
        (g c).neighbors = fullRange N) →
      propLoop pol N fuel g st = .success g' → g' = g := by
  intro fuel
  induction fuel with
  | zero =>
      intro g st g' _ _ _ h
      rw [propLoop_zero] at h
      exact absurd h (by simp)
  | succ fuel ih =>
      intro g st g' hcoh hdom hstack h
      rw [propLoop_succ] at h
      generalize hp : pol st = polres at h
      rcases polres with _ | ⟨c, rest⟩
      · have h2 : PropResult.success g = .success g' := h
        exact (PropResult.success.inj h2).symm
      · have hc : c ∈ st := (hpol.perm _ _ _ hp).mem_iff.mpr (List.mem_cons_self _ _)
        obtain ⟨hc1, hc2, hcv, hcn⟩ := hstack c hc
        obtain ⟨hx, hy⟩ := hcoh c hc1 hc2
        have h2 : (match get_affected_spaces N ((g c).x : Int) ((g c).y : Int) with
          | .error e => PropResult.pyError e
          | .ok aff =>
            match narrowAll g (g c).neighbors rest aff with
            | none => PropResult.contradiction
            | some (g2, st2) => propLoop pol N fuel g2 st2) = .success g' := h
        rw [hx, hy, get_affected_spaces_in_range N c.1 c.2 hc1 hc2] at h2
        have h3 : (match narrowAll g (g c).neighbors rest
              (affectedCoords N (c.1, c.2)) with
          | none => PropResult.contradiction
          | some (g2, st2) => propLoop pol N fuel g2 st2) = .success g' := h2
        generalize hna : narrowAll g (g c).neighbors rest
          (affectedCoords N (c.1, c.2)) = nares at h3
        rcases nares with _ | ⟨g2, st2⟩
        · exact absurd h3 (by simp)
        · have h4 : propLoop pol N fuel g2 st2 = .success g' := h3
          have hnoop := narrowAll_noop ((g c).neighbors) _ _ _ _ _ (by
            intro q hq hqv
            have hqr := affectedCoords_subset_range N hsq (c.1, c.2) hc1 hc2 q hq
            rw [hcn]
            exact Finset.inter_eq_left.mpr (hdom q hqr.1 hqr.2 hqv)) hna
          rw [hnoop.1, hnoop.2] at h4
          exact ih g rest g' hcoh hdom
            (fun c2 hc2' => hstack c2 ((hpol.perm _ _ _ hp).mem_iff.mpr
              (List.mem_cons_of_mem _ hc2'))) h4

theorem affectedCoords_not_center (N : Nat) (c : Nat × Nat) :
    c ∉ affectedCoords N c := by
  rw [mem_affectedCoords]
  rintro ⟨h, -⟩
  exact h rfl

theorem propegateWith_eq (pol : PopPolicy) (N : Nat) (g : Grid)
    (t : SudokuSpace) :
    propegateWith pol N g t =
      propLoop pol N (propFuel N (gridUpdate g (t.x, t.y) t))
        (gridUpdate g (t.x, t.y) t) [(t.x, t.y)] := rfl

theorem propegate_driver_success (pol : PopPolicy) (hpol : PolSpec pol)
    (N : Nat) (hsq : intSqrt N * intSqrt N = N) (g : Grid) (t : SudokuSpace)
    (g' : Grid)
    (hcoh : ∀ p : Nat × Nat, p.1 < N → p.2 < N → (g p).x = p.1 ∧ (g p).y = p.2)
    (hdom : ∀ p : Nat × Nat, p.1 < N → p.2 < N → (g p).value = none →
      (g p).possible_values ⊆ fullRange N)
    (hmask : ∀ p : Nat × Nat, p.1 < N → p.2 < N → (g p).value = none →
      (g p).neighbors = fullRange N)
    (htx : t.x < N) (hty : t.y < N) (htv : t.value ≠ none)
    (h : propegateWith pol N g t = .success g') :
    ∀ p : Nat × Nat,
      g' p = if p = (t.x, t.y) then t
        else if (g p).value = none ∧ p ∈ affectedCoords N (t.x, t.y) then
          ⟨(g p).x, (g p).y, (g p).max_value, (g p).value,
            (g p).possible_values ∩ t.neighbors, (g p).neighbors⟩
        else g p := by
  rw [propegateWith_eq] at h
  obtain ⟨m, hm⟩ : ∃ m, propFuel N (gridUpdate g (t.x, t.y) t) = m + 1 :=
    ⟨(∑ p ∈ Finset.range N ×ˢ Finset.range N,
        ((gridUpdate g (t.x, t.y) t p).possible_values).card) + 1, rfl⟩
  rw [hm, propLoop_succ, pol_singleton pol hpol (t.x, t.y)] at h
  have hseed : gridUpdate g (t.x, t.y) t (t.x, t.y) = t := gridUpdate_same _ _ _
  have h2 : (match get_affected_spaces N
        ((gridUpdate g (t.x, t.y) t (t.x, t.y)).x : Int)
        ((gridUpdate g (t.x, t.y) t (t.x, t.y)).y : Int) with
      | .error e => PropResult.pyError e
      | .ok aff =>
        match narrowAll (gridUpdate g (t.x, t.y) t)
            (gridUpdate g (t.x, t.y) t (t.x, t.y)).neighbors [] aff with
        | none => PropResult.contradiction
        | some (g2, st2) => propLoop pol N m g2 st2) = .success g' := h
  rw [hseed, get_affected_spaces_in_range N t.x t.y htx hty] at h2
  have h3 : (match narrowAll (gridUpdate g (t.x, t.y) t) t.neighbors []
        (affectedCoords N (t.x, t.y)) with
      | none => PropResult.contradiction
      | some (g2, st2) => propLoop pol N m g2 st2) = .success g' := h2
  generalize hna : narrowAll (gridUpdate g (t.x, t.y) t) t.neighbors []
      (affectedCoords N (t.x, t.y)) = nares at h3
  rcases nares with _ | ⟨g1, st1⟩
  · exact absurd h3 (by simp)
  have h4 : propLoop pol N m g1 st1 = .success g' := h3
  have happly := narrowAll_some_apply t.neighbors _ _ _ _ _ hna
  have hstack := narrowAll_some_stack t.neighbors _ _ _ _ _ hna
  have hg0 : ∀ q : Nat × Nat, q ≠ (t.x, t.y) →
      gridUpdate g (t.x, t.y) t q = g q := fun q hq => gridUpdate_ne _ _ _ _ hq
  have hg1coh : ∀ p : Nat × Nat, p.1 < N → p.2 < N →
      (g1 p).x = p.1 ∧ (g1 p).y = p.2 := by
    intro p hp1 hp2
    obtain ⟨⟨hfx, hfy, -, -, -⟩, -, -⟩ := happly p
    rw [hfx, hfy]
    by_cases hps : p = (t.x, t.y)
    · subst hps
      rw [hseed]
      exact ⟨rfl, rfl⟩
    · rw [hg0 p hps]
      exact hcoh p hp1 hp2
  have hg1dom : ∀ p : Nat × Nat, p.1 < N → p.2 < N → (g1 p).value = none →
      (g1 p).possible_values ⊆ fullRange N := by
    intro p hp1 hp2 hpv
    obtain ⟨⟨-, -, -, hfv, -⟩, hc2, hc3⟩ := happly p
    have hps : p ≠ (t.x, t.y) := by
      intro he
      subst he
      rw [hfv, hseed] at hpv
      exact htv hpv
    have hg0p : gridUpdate g (t.x, t.y) t p = g p := hg0 p hps
    have hpv0 : (g p).value = none := by
      rw [hfv, hg0p] at hpv
      exact hpv
    by_cases hmem : p ∈ affectedCoords N (t.x, t.y)
    · obtain ⟨hpe, -⟩ := hc2 hmem (by rw [hg0p]; exact hpv0)
      rw [hpe, hg0p]
      exact subset_trans Finset.inter_subset_left (hdom p hp1 hp2 hpv0)
    · rw [hc3 (Or.inl hmem), hg0p]
      exact hdom p hp1 hp2 hpv0
  have hg1stack : ∀ c ∈ st1, c.1 < N ∧ c.2 < N ∧ (g1 c).value = none ∧
      (g1 c).neighbors = fullRange N := by
    intro c hcst
    rcases hstack.2.1 c hcst with hcnil | ⟨hcaff, hcv, -, -⟩
    · exact absurd hcnil (List.not_mem_nil c)
    · have hcs : c ≠ (t.x, t.y) := by
        intro he
        subst he
        exact affectedCoords_not_center N _ hcaff
      have hcr := affectedCoords_subset_range N hsq (t.x, t.y) htx hty c hcaff
      obtain ⟨⟨-, -, -, hfv, hfn⟩, -, -⟩ := happly c
      rw [hg0 c hcs] at hcv
      refine ⟨hcr.1, hcr.2, ?_, ?_⟩
      · rw [hfv, hg0 c hcs]
        exact hcv
      · rw [hfn, hg0 c hcs]
        exact hmask c hcr.1 hcr.2 hcv
  have hfinal := propLoop_fullmask pol hpol N hsq m g1 st1 g' hg1coh hg1dom
    hg1stack h4
  intro p
  rw [hfinal]
  obtain ⟨⟨hfx, hfy, hfm, hfv, hfn⟩, hc2, hc3⟩ := happly p
  by_cases hps : p = (t.x, t.y)
  · subst hps
    rw [if_pos rfl]
    have hnm := hc3 (Or.inl (affectedCoords_not_center N _))
    ext1
    · rw [hfx, hseed]
    · rw [hfy, hseed]
    · rw [hfm, hseed]
    · rw [hfv, hseed]
    · rw [hnm, hseed]
    · rw [hfn, hseed]
  · rw [if_neg hps]
    have hg0p : gridUpdate g (t.x, t.y) t p = g p := hg0 p hps
    by_cases hcond : (g p).value = none ∧ p ∈ affectedCoords N (t.x, t.y)
    · rw [if_pos hcond]
      obtain ⟨hpe, -⟩ := hc2 hcond.2 (by rw [hg0p]; exact hcond.1)
      ext1
      · rw [hfx, hg0p]
      · rw [hfy, hg0p]
      · rw [hfm, hg0p]
      · rw [hfv, hg0p]
      · rw [hpe, hg0p]
      · rw [hfn, hg0p]
    · rw [if_neg hcond]
      have hunch : (g1 p).possible_values
          = (gridUpdate g (t.x, t.y) t p).possible_values := by
        rcases Decidable.not_and_iff_or_not.mp hcond with hv | hmem
        · exact hc3 (Or.inr (by rw [hg0p]; exact hv))
        · exact hc3 (Or.inl hmem)
      ext1
      · rw [hfx, hg0p]
      · rw [hfy, hg0p]
      · rw [hfm, hg0p]
      · rw [hfv, hg0p]
      · rw [hunch, hg0p]
      · rw [hfn, hg0p]

theorem scanSpaces_mem (N : Nat) (g : Grid) (sp : SudokuSpace)
    (h : sp ∈ scanSpaces N g) :
    ∃ x y : Nat, x < N ∧ y < N ∧ g (x, y) = sp ∧ sp.value = none := by
  unfold scanSpaces at h
  simp only [List.mem_flatMap, List.mem_filterMap, List.mem_range] at h
  obtain ⟨y, hy, x, hx, hfx⟩ := h
  by_cases hv : (g (x, y)).value = none
  · rw [if_pos hv] at hfx
    refine ⟨x, y, hx, hy, Option.some.inj hfx, ?_⟩
    rw [← Option.some.inj hfx]
    exact hv
  · rw [if_neg hv] at hfx
    exact absurd hfx (by simp)

theorem minStep_subset (acc : Option Nat × List SudokuSpace)
    (a sp : SudokuSpace) (h : sp ∈ (minStep acc a).2) : sp ∈ acc.2 ∨ sp = a := by
  rcases acc with ⟨mv, ms⟩
  rcases mv with _ | m
  · simp only [minStep, List.mem_singleton] at h
    exact Or.inr h
  · simp only [minStep] at h
    by_cases h1 : a.possible_values.card < m
    · rw [if_pos h1] at h
      exact Or.inr (List.mem_singleton.mp h)
    · rw [if_neg h1] at h
      by_cases h2 : a.possible_values.card = m
      · rw [if_pos h2] at h
        rcases List.mem_append.mp h with h | h
        · exact Or.inl h
        · exact Or.inr (List.mem_singleton.mp h)
      · rw [if_neg h2] at h
        exact Or.inl h

theorem minFold_subset (l : List SudokuSpace) :
    ∀ (acc : Option Nat × List SudokuSpace) (sp : SudokuSpace),
      sp ∈ (l.foldl minStep acc).2 → sp ∈ acc.2 ∨ sp ∈ l := by
  induction l with
  | nil => intro acc sp h; exact Or.inl h
  | cons a l ih =>
      intro acc sp h
      rw [List.foldl_cons] at h
      rcases ih (minStep acc a) sp h with hm | hm
      · rcases minStep_subset acc a sp hm with hm' | rfl
        · exact Or.inl hm'
        · exact Or.inr (List.mem_cons_self _ _)
      · exact Or.inr (List.mem_cons_of_mem _ hm)

theorem get_min_entropy_tile_mem (N : Nat) (g : Grid) (k : Nat)
    (sel : SudokuSpace) (h : get_min_entropy_tile N g k = some sel) :
    ∃ x y : Nat, x < N ∧ y < N ∧ g (x, y) = sel ∧ sel.value = none := by
  unfold get_min_entropy_tile at h
  have hmem : sel ∈ ((scanSpaces N g).foldl minStep (none, [])).2 :=
    List.get?_mem h
  rcases minFold_subset (scanSpaces N g) (none, []) sel hmem with h0 | hscan
  · exact absurd h0 (List.not_mem_nil sel)
  · exact scanSpaces_mem N g sel hscan

theorem collapase_ok_some (s : SudokuSpace) (k : Nat) (t : SudokuSpace)
    (h : s.collapase k = .ok (some t)) :
    s.possible_values ≠ ∅ ∧
    t = ⟨s.x, s.y, s.max_value, some (collapsePick s k),
      if 1 < s.possible_values.card then
        s.possible_values.erase (collapsePick s k)
      else {collapsePick s k},
      s.neighbors.erase (collapsePick s k)⟩ := by
  have hne : s.possible_values ≠ ∅ := by
    intro he
    unfold SudokuSpace.collapase at h
    simp [he, sortedList_empty] at h
  rw [collapase_eq_of_nonempty s k hne] at h
  exact ⟨hne, (Option.some.inj (Except.ok.inj h)).symm⟩

theorem iterate_ok_some (N k1 k2 : Nat) (g g2 : Grid)
    (h : WFC.iterate N k1 k2 g = .ok (some g2)) :
    ∃ sel t, get_min_entropy_tile N g k1 = some sel ∧
      sel.collapase k2 = .ok (some t) ∧
      SudokuBoard.propegate N g t = .success g2 := by
  unfold WFC.iterate at h
  generalize hmin : get_min_entropy_tile N g k1 = minres at h
  rcases minres with _ | sel
  · have h1 : Except.ok (ε := Err) (α := Option Grid) none = .ok (some g2) := h
    exact absurd h1 (by simp)
  · have h1 : (match sel.collapase k2 with
      | Except.error e => Except.error e
      | Except.ok none => Except.ok none
      | Except.ok (some t) =>
        match SudokuBoard.propegate N g t with
        | PropResult.success g3 => Except.ok (some g3)
        | PropResult.contradiction => Except.ok none
        | PropResult.pyError e => Except.error e
        | PropResult.outOfFuel => Except.error Err.outOfFuel)
        = Except.ok (ε := Err) (some g2) := h
    generalize hcol : sel.collapase k2 = colres at h1
    rcases colres with e | og
    · exact absurd h1 (by simp)
    · rcases og with _ | t
      · exact absurd h1 (by simp)
      · have h2 : (match SudokuBoard.propegate N g t with
          | PropResult.success g3 => Except.ok (some g3)
          | PropResult.contradiction => Except.ok none
          | PropResult.pyError e => Except.error e
          | PropResult.outOfFuel => Except.error Err.outOfFuel)
            = Except.ok (ε := Err) (some g2) := h1
        generalize hprop : SudokuBoard.propegate N g t = propres at h2
        rcases propres with g3 | _ | e | _
        · have h3 : Except.ok (ε := Err) (some g3) = .ok (some g2) := h2
          obtain rfl : g3 = g2 := Option.some.inj (Except.ok.inj h3)
          exact ⟨sel, t, hmin.symm.trans rfl ▸ rfl, hcol, hprop⟩
        · exact absurd h2 (by simp)
        · exact absurd h2 (by simp)
        · exact absurd h2 (by simp)

/-- Invariant of every board adopted by the driver when solving from an empty
board: coordinates are coherent, uncommitted spaces still carry the full
neighbor set and an in-range domain, a committed value never remains in the
domain of an uncommitted space of its row, column or box, and committed
values are pairwise distinct inside every row, column and box. -/
def DriverInv (N : Nat) (g : Grid) : Prop :=
  (∀ p : Nat × Nat, p.1 < N → p.2 < N →
    (g p).x = p.1 ∧ (g p).y = p.2 ∧
    ((g p).value = none → (g p).neighbors = fullRange N ∧
      (g p).possible_values ⊆ fullRange N)) ∧
  (∀ p q : Nat × Nat, p.1 < N → p.2 < N → q ∈ affectedCoords N p →
    (g p).value ≠ none → (g q).value = none →
      ∀ v : Int, (g p).value = some v → v ∉ (g q).possible_values) ∧
  (∀ p q : Nat × Nat, p.1 < N → p.2 < N → q ∈ affectedCoords N p →
    (g p).value ≠ none → (g q).value ≠ none → (g p).value ≠ (g q).value)

theorem driverInv_empty (N : Nat) : DriverInv N (mkEmptyGrid N) := by
  refine ⟨?_, ?_, ?_⟩
  · intro p _ _
    exact ⟨rfl, rfl, fun _ => ⟨rfl, subset_rfl⟩⟩
  · intro p q _ _ _ hpv _ _ _
    exact absurd rfl hpv
  · intro p q _ _ _ hpv _
    exact absurd rfl hpv

theorem driverInv_step (N : Nat) (hsq : intSqrt N * intSqrt N = N)
    (g g2 : Grid) (k1 k2 : Nat) (hinv : DriverInv N g)
    (h : WFC.iterate N k1 k2 g = .ok (some g2)) : DriverInv N g2 := by
  obtain ⟨sel, t, hmin, hcol, hprop⟩ := iterate_ok_some N k1 k2 g g2 h
  obtain ⟨x, y, hx, hy, hgsel, hselv⟩ := get_min_entropy_tile_mem N g k1 sel hmin
  obtain ⟨hne, ht⟩ := collapase_ok_some sel k2 t hcol
  obtain ⟨hselx, hsely, hselfull⟩ := hinv.1 (x, y) hx hy
  rw [hgsel] at hselx hsely hselfull
  have hselvg : (g (x, y)).value = none := by rw [hgsel]; exact hselv
  have hfull := hselfull hselv
  have htx : t.x = x := by rw [ht]; exact hselx
  have hty : t.y = y := by rw [ht]; exact hsely
  have htv : t.value = some (collapsePick sel k2) := by rw [ht]
  have htn : t.neighbors = (fullRange N).erase (collapsePick sel k2) := by
    rw [ht]
    simp only
    rw [hfull.1]
  have hpickmem : collapsePick sel k2 ∈ (g (x, y)).possible_values := by
    rw [hgsel]
    exact collapsePick_mem sel k2 hne
  have happly := propegate_driver_success lifoPop lifoPop_spec N hsq g t g2
    (fun p hp1 hp2 => ⟨(hinv.1 p hp1 hp2).1, (hinv.1 p hp1 hp2).2.1⟩)
    (fun p hp1 hp2 hpv => ((hinv.1 p hp1 hp2).2.2 hpv).2)
    (fun p hp1 hp2 hpv => ((hinv.1 p hp1 hp2).2.2 hpv).1)
    (by rw [htx]; exact hx) (by rw [hty]; exact hy)
    (by rw [htv]; exact fun hc => Option.noConfusion hc) hprop
  have hseedeq : ((t.x, t.y) : Nat × Nat) = (x, y) := by rw [htx, hty]
  have hpt : ∀ p : Nat × Nat, g2 p = if p = (x, y) then t
      else if (g p).value = none ∧ p ∈ affectedCoords N (x, y) then
        ⟨(g p).x, (g p).y, (g p).max_value, (g p).value,
          (g p).possible_values ∩ t.neighbors, (g p).neighbors⟩
      else g p := by
    intro p
    rw [happly p, hseedeq]
  have hseedt : g2 (x, y) = t := by rw [hpt (x, y), if_pos rfl]
  have hvalpt : ∀ p : Nat × Nat, p ≠ (x, y) → (g2 p).value = (g p).value := by
    intro p hp
    rw [hpt p, if_neg hp]
    by_cases hc : (g p).value = none ∧ p ∈ affectedCoords N (x, y)
    · rw [if_pos hc]
    · rw [if_neg hc]
  have hpvsub : ∀ p : Nat × Nat, p ≠ (x, y) →
      (g2 p).possible_values ⊆ (g p).possible_values := by
    intro p hp
    rw [hpt p, if_neg hp]
    by_cases hc : (g p).value = none ∧ p ∈ affectedCoords N (x, y)
    · rw [if_pos hc]
      exact Finset.inter_subset_left
    · rw [if_neg hc]
  refine ⟨?_, ?_, ?_⟩
  · intro p hp1 hp2
    obtain ⟨h1, h2, h3⟩ := hinv.1 p hp1 hp2
    rw [hpt p]
    by_cases hps : p = (x, y)
    · rw [if_pos hps]
      subst hps
      refine ⟨htx, hty, fun hc => absurd hc (by rw [htv]; simp)⟩
    · rw [if_neg hps]
      by_cases hc : (g p).value = none ∧ p ∈ affectedCoords N (x, y)
      · rw [if_pos hc]
        refine ⟨h1, h2, fun hv => ⟨(h3 hc.1).1, ?_⟩⟩
        exact subset_trans Finset.inter_subset_left (h3 hc.1).2
      · rw [if_neg hc]
        exact ⟨h1, h2, h3⟩
  · intro p q hp1 hp2 hqmem hpv hqv v hval
    have hqr := affectedCoords_subset_range N hsq p hp1 hp2 q hqmem
    have hqs : q ≠ (x, y) := by
      intro he
      rw [he, hseedt, htv] at hqv
      exact Option.noConfusion hqv
    have hqvg : (g q).value = none := by rw [← hvalpt q hqs]; exact hqv
    by_cases hps : p = (x, y)
    · subst hps
      rw [hseedt, htv] at hval
      obtain rfl : collapsePick sel k2 = v := Option.some.inj hval
      have hqnarrow : (g2 q).possible_values
          = (g q).possible_values ∩ t.neighbors := by
        rw [hpt q, if_neg hqs, if_pos ⟨hqvg, hqmem⟩]
      rw [hqnarrow, htn]
      intro hmem
      exact absurd (Finset.mem_inter.mp hmem).2
        (Finset.not_mem_erase _ _)
    · have hpvg : (g p).value ≠ none := by rw [← hvalpt p hps]; exact hpv
      have hvalg : (g p).value = some v := by rw [← hvalpt p hps]; exact hval
      intro hmem
      exact hinv.2.1 p q hp1 hp2 hqmem hpvg hqvg v hvalg (hpvsub q hqs hmem)
  · intro p q hp1 hp2 hqmem hpv hqv
    have hqr := affectedCoords_subset_range N hsq p hp1 hp2 q hqmem
    by_cases hps : p = (x, y)
    · subst hps
      have hqs : q ≠ (x, y) := by
        intro he
        rw [he] at hqmem
        exact affectedCoords_not_center N (x, y) hqmem
      have hqvg : (g q).value ≠ none := by rw [← hvalpt q hqs]; exact hqv
      obtain ⟨w, hw⟩ : ∃ w, (g q).value = some w := by
        rcases hval : (g q).value with _ | w
        · exact absurd hval hqvg
        · exact ⟨w, rfl⟩
      have hsym := affectedCoords_symm N hsq (x, y) q hx hy hqmem
      have hnot := hinv.2.1 q (x, y) hqr.1 hqr.2 hsym hqvg hselvg w hw
      rw [hseedt, htv, hvalpt q hqs, hw]
      intro he
      exact hnot (by rw [← Option.some.inj he]; exact hpickmem)
    · have hpvg : (g p).value ≠ none := by rw [← hvalpt p hps]; exact hpv
      by_cases hqs : q = (x, y)
      · subst hqs
        obtain ⟨w, hw⟩ : ∃ w, (g p).value = some w := by
          rcases hval : (g p).value with _ | w
          · exact absurd hval hpvg
          · exact ⟨w, rfl⟩
        have hnot := hinv.2.1 p (x, y) hp1 hp2 hqmem hpvg hselvg w hw
        rw [hseedt, htv, hvalpt p hps, hw]
        intro he
        exact hnot (by rw [Option.some.inj he]; exact hpickmem)
      · have hqvg : (g q).value ≠ none := by rw [← hvalpt q hqs]; exact hqv
        rw [hvalpt p hps, hvalpt q hqs]
        exact hinv.2.2 p q hp1 hp2 hqmem hpvg hqvg

theorem is_collapsed_iff (N : Nat) (g : Grid) :
    is_collapsed N g = true ↔
      ∀ p : Nat × Nat, p.1 < N → p.2 < N → (g p).value ≠ none := by
  unfold is_collapsed
  simp only [List.all_eq_true, List.mem_range, decide_eq_true_eq]
  constructor
  · intro h p hp1 hp2
    exact h p.2 hp2 p.1 hp1
  · intro h y hy x hx
    exact h (x, y) hx hy

theorem nodup_values_map (g : Grid) (coords : List (Nat × Nat))
    (hnodup : coords.Nodup)
    (hdistinct : ∀ p ∈ coords, ∀ q ∈ coords, p ≠ q →
      (g p).value ≠ (g q).value) :
    (coords.map (fun c => (g c).value)).Nodup := by
  refine List.Nodup.map_on ?_ hnodup
  intro p hp q hq heq
  by_contra hne
  exact hdistinct p hp q hq hne heq

theorem stepRange_mem (N s i : Nat) :
    i ∈ stepRange N s ↔ i < N ∧ i % s = 0 := by
  unfold stepRange
  simp [List.mem_filter, List.mem_range]

theorem is_valid_of_driverInv (N : Nat) (hsq : intSqrt N * intSqrt N = N)
    (g : Grid) (hinv : DriverInv N g)
    (hcol : ∀ p : Nat × Nat, p.1 < N → p.2 < N → (g p).value ≠ none) :
    is_valid N g = true := by
  have hmk : ∀ p q : Nat × Nat, p.1 < N → p.2 < N → q.1 < N → q.2 < N →
      p ≠ q → q ∈ affectedCoords N p → (g p).value ≠ (g q).value := by
    intro p q hp1 hp2 hq1 hq2 _ hq
    exact hinv.2.2 p q hp1 hp2 hq (hcol p hp1 hp2) (hcol q hq1 hq2)
  unfold is_valid
  rw [Bool.and_eq_true, Bool.and_eq_true]
  refine ⟨⟨?_, ?_⟩, ?_⟩
  · simp only [List.all_eq_true, List.mem_range, beq_iff_eq]
    intro y hy
    have heq : (List.range N).map (fun x => (g (x, y)).value)
        = ((List.range N).map (fun x => ((x, y) : Nat × Nat))).map
            (fun c => (g c).value) := by
      rw [List.map_map]
      rfl
    have hnd : (((List.range N).map (fun x => ((x, y) : Nat × Nat))).map
        (fun c => (g c).value)).Nodup := by
      apply nodup_values_map
      · exact List.Nodup.map (fun a b hab =>
          ((Prod.mk.injEq _ _ _ _).mp hab).1) (List.nodup_range N)
      · intro p hp q hq hpq
        simp only [List.mem_map, List.mem_range] at hp hq
        obtain ⟨x1, hx1, rfl⟩ := hp
        obtain ⟨x2, hx2, rfl⟩ := hq
        refine hmk _ _ hx1 hy hx2 hy hpq ?_
        rw [mem_affectedCoords]
        exact ⟨fun hc => hpq hc.symm, Or.inl ⟨rfl, hx2⟩⟩
    rw [heq, List.dedup_eq_self.mpr hnd, List.length_map, List.length_map,
      List.length_range]
  · simp only [List.all_eq_true, List.mem_range, beq_iff_eq]
    intro col hcolr
    have heq : (List.range N).map (fun row => (g (col, row)).value)
        = ((List.range N).map (fun row => ((col, row) : Nat × Nat))).map
            (fun c => (g c).value) := by
      rw [List.map_map]
      rfl
    have hnd : (((List.range N).map (fun row => ((col, row) : Nat × Nat))).map
        (fun c => (g c).value)).Nodup := by
      apply nodup_values_map
      · exact List.Nodup.map (fun a b hab =>
          ((Prod.mk.injEq _ _ _ _).mp hab).2) (List.nodup_range N)
      · intro p hp q hq hpq
        simp only [List.mem_map, List.mem_range] at hp hq
        obtain ⟨y1, hy1, rfl⟩ := hp
        obtain ⟨y2, hy2, rfl⟩ := hq
        refine hmk _ _ hcolr hy1 hcolr hy2 hpq ?_
        rw [mem_affectedCoords]
        exact ⟨fun hc => hpq hc.symm, Or.inr (Or.inl ⟨rfl, hy2⟩)⟩
    rw [heq, List.dedup_eq_self.mpr hnd, List.length_map, List.length_map,
      List.length_range]
  · show ((stepRange N (intSqrt N)).all fun i =>
      (stepRange N (intSqrt N)).all fun j =>
        (((List.range (intSqrt N)).flatMap (fun ro =>
          (List.range (intSqrt N)).map
            (fun co => (g (j + co, i + ro)).value))).dedup.length == N)) = true
    simp only [List.all_eq_true, beq_iff_eq]
    intro i hi j hj
    rw [stepRange_mem] at hi hj
    have hs1 : 1 ≤ intSqrt N := by
      rcases Nat.eq_zero_or_pos (intSqrt N) with h | h
      · rw [h, Nat.zero_mul] at hsq
        omega
      · exact h
    have hiN : i + intSqrt N ≤ N := by
      have := box_bound N hsq i hi.1
      omega
    have hjN : j + intSqrt N ≤ N := by
      have := box_bound N hsq j hj.1
      omega
    have heq : (List.range (intSqrt N)).flatMap (fun ro =>
        (List.range (intSqrt N)).map (fun co => (g (j + co, i + ro)).value))
        = ((List.range (intSqrt N)).flatMap (fun ro =>
            (List.range (intSqrt N)).map
              (fun co => ((j + co, i + ro) : Nat × Nat)))).map
            (fun c => (g c).value) := by
      rw [List.map_flatMap]
      congr 1
      funext ro
      rw [List.map_map]
      rfl
    have hmem : ∀ p : Nat × Nat, p ∈ (List.range (intSqrt N)).flatMap
        (fun ro => (List.range (intSqrt N)).map
          (fun co => ((j + co, i + ro) : Nat × Nat))) ↔
        (j ≤ p.1 ∧ p.1 < j + intSqrt N ∧ i ≤ p.2 ∧ p.2 < i + intSqrt N) := by
      intro p
      simp only [List.mem_flatMap, List.mem_map, List.mem_range]
      constructor
      · rintro ⟨ro, hro, co, hco, rfl⟩
        dsimp only
        omega
      · rintro ⟨hp1, hp2, hp3, hp4⟩
        exact ⟨p.2 - i, by omega, p.1 - j, by omega, by
          rw [show j + (p.1 - j) = p.1 by omega,
            show i + (p.2 - i) = p.2 by omega]⟩
    have hnd : (((List.range (intSqrt N)).flatMap (fun ro =>
        (List.range (intSqrt N)).map
          (fun co => ((j + co, i + ro) : Nat × Nat)))).map
        (fun c => (g c).value)).Nodup := by
      apply nodup_values_map
      · rw [List.nodup_flatMap]
        constructor
        · intro ro _
          refine List.Nodup.map ?_ (List.nodup_range _)
          intro a b hab
          have h1 := congrArg Prod.fst hab
          dsimp only at h1
          omega
        · refine List.Pairwise.imp ?_ (List.pairwise_lt_range (intSqrt N))
          intro ro ro' hlt
          intro a ha ha'
          simp only [List.mem_map, List.mem_range] at ha ha'
          obtain ⟨co, hco, rfl⟩ := ha
          obtain ⟨co', hco', he⟩ := ha'
          have h2 := congrArg Prod.snd he
          dsimp only at h2
          omega
      · intro p hp q hq hpq
        rw [hmem] at hp hq
        have hpr : p.1 < N ∧ p.2 < N := ⟨by omega, by omega⟩
        have hqr : q.1 < N ∧ q.2 < N := ⟨by omega, by omega⟩
        refine hmk p q hpr.1 hpr.2 hqr.1 hqr.2 hpq ?_
        rw [mem_affectedCoords]
        refine ⟨fun hc => hpq hc.symm, Or.inr (Or.inr ?_)⟩
        have h1 : p.1 - p.1 % intSqrt N = j :=
          mod_eq_of_box (intSqrt N) j p.1 hs1 hj.2 hp.1 hp.2.1
        have h2 : p.2 - p.2 % intSqrt N = i :=
          mod_eq_of_box (intSqrt N) i p.2 hs1 hi.2 hp.2.2.1 hp.2.2.2
        rw [h1, h2]
        omega
    rw [heq, List.dedup_eq_self.mpr hnd, List.length_map, List.length_flatMap]
    have hconst : (List.map (List.length ∘ fun ro =>
        (List.range (intSqrt N)).map
          (fun co => ((j + co, i + ro) : Nat × Nat)))
        (List.range (intSqrt N)))
        = List.replicate (intSqrt N) (intSqrt N) := by
      rw [show (List.length ∘ fun ro => (List.range (intSqrt N)).map
          (fun co => ((j + co, i + ro) : Nat × Nat)))
          = fun ro => intSqrt N from funext fun ro => by
            simp [List.length_map, List.length_range]]
      rw [List.map_const', List.length_range]
    rw [hconst, List.sum_replicate, smul_eq_mul, hsq]

/-- C1: partial correctness of the solver.  For every board size `N` that is
a perfect square (`intSqrt` embeds `int(N ** 0.5)`) and at least 1, if the
empty `SudokuBoard` of size `N` is constructed and `WFC.collapse_wavefunction`
runs to normal completion (so the final wavefunction is collapsed), the
resulting board satisfies `is_valid`: every row, column and `√N x √N` box
holds `N` distinct values. -/
theorem solver_partial_correctness (N fuel : Nat) (o : Nat → Nat × Nat)
    (g0 : Grid) (hsq : intSqrt N * intSqrt N = N) (h1 : 1 ≤ N)
    (hmk : SudokuBoard.init N = .ok g0)
    (hok : (collapse_wavefunction N o fuel ⟨g0, []⟩).isOk = true) :
    is_valid N (runState (collapse_wavefunction N o fuel ⟨g0, []⟩)).wavefunction
      = true := by
  have hg0 : g0 = mkEmptyGrid N := by
    unfold SudokuBoard.init at hmk
    rw [if_pos hsq] at hmk
    exact (Except.ok.inj hmk).symm
  subst hg0
  suffices H : ∀ (fuel : Nat) (w : WFC), DriverInv N w.wavefunction →
      (∀ gh ∈ w.previous_wavefunctions, DriverInv N gh) →
      (collapse_wavefunction N o fuel w).isOk = true →
      is_valid N (runState (collapse_wavefunction N o fuel w)).wavefunction
        = true by
    exact H fuel ⟨mkEmptyGrid N, []⟩ (driverInv_empty N)
      (by intro gh hgh; exact absurd hgh (List.not_mem_nil gh)) hok
  intro fuel
  induction fuel with
  | zero =>
      intro w _ _ hok2
      exact absurd hok2
        (by simp [collapse_wavefunction, Except.isOk, Except.toBool])
  | succ n ih =>
      intro w hinv hhist hok2
      rw [collapse_wavefunction_succ] at hok2 ⊢
      by_cases hc : is_collapsed N w.wavefunction = true
      · rw [if_pos hc] at hok2 ⊢
        show is_valid N w.wavefunction = true
        exact is_valid_of_driverInv N hsq _ hinv
          (fun p hp1 hp2 => (is_collapsed_iff N w.wavefunction).mp hc p hp1 hp2)
      · rw [if_neg hc] at hok2 ⊢
        generalize hiter : WFC.iterate N (o n).1 (o n).2 w.wavefunction = it
          at hok2 ⊢
        rcases it with e | og
        · exact absurd hok2 (by simp [Except.isOk, Except.toBool])
        · rcases og with _ | g2
          · generalize hprev : w.previous_wavefunctions = prev at hok2 ⊢
            rcases prev with _ | ⟨gp, rest⟩
            · exact absurd hok2 (by simp [Except.isOk, Except.toBool])
            · refine ih ⟨gp, rest⟩ ?_ ?_ hok2
              · exact hhist gp (by rw [hprev]; exact List.mem_cons_self _ _)
              · intro gh hgh
                exact hhist gh (by rw [hprev]; exact List.mem_cons_of_mem _ hgh)
          · refine ih ⟨g2, w.wavefunction :: w.previous_wavefunctions⟩ ?_ ?_ hok2
            · exact driverInv_step N hsq w.wavefunction g2 (o n).1 (o n).2
                hinv hiter
            · intro gh hgh
              rcases List.mem_cons.mp hgh with rfl | hgh'
              · exact hinv
              · exact hhist gh hgh'

theorem solver_partial_correctness_witness :
    is_valid 1 (runState (collapse_wavefunction 1 (fun _ => (0, 0)) 3
      ⟨mkEmptyGrid 1, []⟩)).wavefunction = true :=
  solver_partial_correctness 1 3 (fun _ => (0, 0)) (mkEmptyGrid 1)
    (by decide) (by decide) rfl rfl

/-- The coordinates of the board. -/
def allCoords (N : Nat) : Finset (Nat × Nat) := Finset.range N ×ˢ Finset.range N

/-- Greatest possible narrowing of the domain at `p` by the `neighbors` masks
of the spaces in `A` whose affected set contains `p` (grid `gS` is the
propagation's starting snapshot, whose masks stay fixed for the whole loop). -/
def idealDomOf (N : Nat) (gS : Grid) (A : Finset (Nat × Nat))
    (p : Nat × Nat) : Finset Int :=
  ((gS p).possible_values).filter
    (fun v => ∀ T ∈ A, p ∈ affectedCoords N T → v ∈ (gS T).neighbors)

/-- One closure step of the set of spaces activated by the propagation: a
space becomes activated when it is uncommitted, affected by an already
activated space, and the masks of the activated spaces actually narrow its
domain. -/
def closStep (N : Nat) (gS : Grid) (A : Finset (Nat × Nat)) :
    Finset (Nat × Nat) :=
  A ∪ (allCoords N).filter (fun S => (gS S).value = none ∧
    (∃ T ∈ A, S ∈ affectedCoords N T) ∧
    idealDomOf N gS A S ≠ (gS S).possible_values)

/-- Iterated closure steps starting from the collapsed seed space. -/
def closIter (N : Nat) (gS : Grid) (seed : Nat × Nat) : Nat → Finset (Nat × Nat)
  | 0 => {seed}
  | k + 1 => closStep N gS (closIter N gS seed k)

/-- The set of spaces directly or transitively affected (with actual domain
narrowing) by propagating from `seed`: the closure stabilizes within `N * N`
steps. -/
def propClosure (N : Nat) (gS : Grid) (seed : Nat × Nat) : Finset (Nat × Nat) :=
  closIter N gS seed (N * N)

theorem idealDomOf_subset (N : Nat) (gS : Grid) (A : Finset (Nat × Nat))
    (p : Nat × Nat) : idealDomOf N gS A p ⊆ (gS p).possible_values :=
  Finset.filter_subset _ _

theorem idealDomOf_anti (N : Nat) (gS : Grid) (A B : Finset (Nat × Nat))
    (hAB : A ⊆ B) (p : Nat × Nat) :
    idealDomOf N gS B p ⊆ idealDomOf N gS A p := by
  intro v hv
  rw [idealDomOf, Finset.mem_filter] at hv ⊢
  exact ⟨hv.1, fun T hT hmem => hv.2 T (hAB hT) hmem⟩

theorem idealDomOf_subset_mask (N : Nat) (gS : Grid) (A : Finset (Nat × Nat))
    (p T : Nat × Nat) (hT : T ∈ A) (hmem : p ∈ affectedCoords N T) :
    idealDomOf N gS A p ⊆ (gS T).neighbors := by
  intro v hv
  rw [idealDomOf, Finset.mem_filter] at hv
  exact hv.2 T hT hmem

theorem closStep_subset (N : Nat) (gS : Grid) (A : Finset (Nat × Nat)) :
    A ⊆ closStep N gS A := Finset.subset_union_left

theorem closIter_mono (N : Nat) (gS : Grid) (seed : Nat × Nat) :
    ∀ k m : Nat, k ≤ m → closIter N gS seed k ⊆ closIter N gS seed m := by
  intro k m hkm
  induction m with
  | zero =>
      obtain rfl : k = 0 := Nat.le_zero.mp hkm
      exact subset_rfl
  | succ m ih =>
      rcases Nat.lt_or_ge k (m + 1) with h | h
      · exact subset_trans (ih (by omega)) (closStep_subset N gS _)
      · obtain rfl : k = m + 1 := by omega
        exact subset_rfl

theorem seed_mem_closIter (N : Nat) (gS : Grid) (seed : Nat × Nat) (k : Nat) :
    seed ∈ closIter N gS seed k :=
  closIter_mono N gS seed 0 k (Nat.zero_le k) (Finset.mem_singleton_self seed)

theorem seed_mem_propClosure (N : Nat) (gS : Grid) (seed : Nat × Nat) :
    seed ∈ propClosure N gS seed := seed_mem_closIter N gS seed (N * N)

theorem closIter_mem (N : Nat) (gS : Grid) (seed : Nat × Nat) (k : Nat) :
    ∀ p ∈ closIter N gS seed k,
      p = seed ∨ ((gS p).value = none ∧ p ∈ allCoords N) := by
  induction k with
  | zero =>
      intro p hp
      exact Or.inl (Finset.mem_singleton.mp hp)
  | succ k ih =>
      intro p hp
      rcases Finset.mem_union.mp hp with hp | hp
      · exact ih p hp
      · rw [Finset.mem_filter] at hp
        exact Or.inr ⟨hp.2.1, hp.1⟩

theorem closIter_stab (N : Nat) (gS : Grid) (seed : Nat × Nat) (k : Nat)
    (h : closIter N gS seed (k + 1) = closIter N gS seed k) :
    ∀ m : Nat, k ≤ m → closIter N gS seed m = closIter N gS seed k := by
  intro m hkm
  induction m with
  | zero =>
      obtain rfl : k = 0 := Nat.le_zero.mp hkm
      rfl
  | succ m ih =>
      rcases Nat.lt_or_ge k (m + 1) with hlt | hge
      · have hm := ih (by omega)
        show closStep N gS (closIter N gS seed m) = closIter N gS seed k
        rw [hm]
        exact h
      · obtain rfl : k = m + 1 := by omega
        rfl

theorem propClosure_chain_subset_all (N : Nat) (gS : Grid) (seed : Nat × Nat)
    (hseed : seed ∈ allCoords N) (k : Nat) :
    closIter N gS seed k ⊆ allCoords N := by
  intro p hp
  rcases closIter_mem N gS seed k p hp with rfl | ⟨-, hmem⟩
  · exact hseed
  · exact hmem

theorem propClosure_fixed (N : Nat) (gS : Grid) (seed : Nat × Nat)
    (hseed : seed ∈ allCoords N) :
    closStep N gS (propClosure N gS seed) = propClosure N gS seed := by
  by_contra hne
  have hstrict : ∀ k : Nat, k ≤ N * N →
      closIter N gS seed k ⊂ closIter N gS seed (k + 1) := by
    intro k hk
    by_cases heq : closIter N gS seed (k + 1) = closIter N gS seed k
    · exfalso
      apply hne
      have hstab := closIter_stab N gS seed k heq
      show closStep N gS (closIter N gS seed (N * N)) = closIter N gS seed (N * N)
      rw [hstab (N * N) (by omega)]
      exact heq
    · exact Finset.ssubset_iff_subset_ne.mpr
        ⟨closStep_subset N gS _, fun hc => heq hc.symm⟩
  have hcard : ∀ k : Nat, k ≤ N * N → k + 1 ≤ (closIter N gS seed k).card := by
    intro k
    induction k with
    | zero =>
        intro _
        simp [closIter]
    | succ k ih =>
        intro hk
        have h1 := ih (by omega)
        have h2 := Finset.card_lt_card (hstrict k (by omega))
        omega
  have hle : (closIter N gS seed (N * N)).card ≤ N * N := by
    have := Finset.card_le_card (propClosure_chain_subset_all N gS seed hseed (N * N))
    simpa [allCoords] using this
  have := hcard (N * N) (le_refl _)
  omega

/-- Total size of all in-range domains: the termination measure of the
propagation loop (each iteration strictly decreases `totalDom` plus the
stack length). -/
def totalDom (N : Nat) (g : Grid) : Nat :=
  ∑ p ∈ Finset.range N ×ˢ Finset.range N, ((g p).possible_values).card

theorem propFuel_eq (N : Nat) (g : Grid) :
    propFuel N g = totalDom N g + 2 := rfl

theorem totalDom_update_lt (N : Nat) (g : Grid) (c : Nat × Nat)
    (s : SudokuSpace) (hc1 : c.1 < N) (hc2 : c.2 < N)
    (hlt : s.possible_values.card < ((g c).possible_values).card) :
    totalDom N (gridUpdate g c s) < totalDom N g := by
  unfold totalDom
  apply Finset.sum_lt_sum
  · intro i hi
    by_cases hic : i = c
    · subst hic
      rw [gridUpdate_same]
      exact le_of_lt hlt
    · rw [gridUpdate_ne _ _ _ _ hic]
  · exact ⟨c, by
      simp only [Finset.mem_product, Finset.mem_range]
      exact ⟨hc1, hc2⟩, by rw [gridUpdate_same]; exact hlt⟩

theorem narrowAll_measure (N : Nat) (mask : Finset Int)
    (ps : List (Nat × Nat)) (hps : ∀ q ∈ ps, q.1 < N ∧ q.2 < N) :
    ∀ (g : Grid) (st : List (Nat × Nat)) (g2 : Grid) (st2 : List (Nat × Nat)),
      narrowAll g mask st ps = some (g2, st2) →
      totalDom N g2 + st2.length ≤ totalDom N g + st.length := by
  induction ps with
  | nil =>
      intro g st g2 st2 h
      rw [narrowAll_nil] at h
      obtain ⟨rfl, rfl⟩ : g = g2 ∧ st = st2 := by
        constructor <;> [exact congrArg Prod.fst (Option.some.inj h);
          exact congrArg Prod.snd (Option.some.inj h)]
      exact le_refl _
  | cons p ps ih =>
      intro g st g2 st2 h
      rw [narrowAll_cons] at h
      by_cases hv : (g p).value = none
      · rw [if_neg (by simp [hv])] at h
        by_cases hbr : (g p).possible_values ∩ mask ≠ ∅ ∧
            (g p).possible_values ≠ (g p).possible_values ∩ mask
        · rw [if_pos hbr] at h
          have hstep := ih (fun q hq => hps q (List.mem_cons_of_mem _ hq)) _ _ g2 st2 h
          have hcard : ((g p).possible_values ∩ mask).card
              < ((g p).possible_values).card := by
            apply Finset.card_lt_card
            exact Finset.ssubset_iff_subset_ne.mpr
              ⟨Finset.inter_subset_left, fun hc => hbr.2 hc.symm⟩
          have hdec := totalDom_update_lt N g p
            ⟨(g p).x, (g p).y, (g p).max_value, (g p).value,
              (g p).possible_values ∩ mask, (g p).neighbors⟩
            (hps p (List.mem_cons_self _ _)).1 (hps p (List.mem_cons_self _ _)).2
            hcard
          have hlen : (if p ∈ st then st else st ++ [p]).length ≤ st.length + 1 := by
            by_cases hp : p ∈ st
            · rw [if_pos hp]; omega
            · rw [if_neg hp]; simp
          omega
        · rw [if_neg hbr] at h
          by_cases hemp : (g p).possible_values ∩ mask = ∅
          · rw [if_pos hemp] at h
            exact absurd h (by simp)
          · rw [if_neg hemp] at h
            exact ih (fun q hq => hps q (List.mem_cons_of_mem _ hq)) _ _ g2 st2 h
      · rw [if_pos (by simp [hv])] at h
        exact ih (fun q hq => hps q (List.mem_cons_of_mem _ hq)) _ _ g2 st2 h

theorem get_affected_spaces_ok (N : Nat) (x y : Int)
    (l : List (Nat × Nat)) (h : get_affected_spaces N x y = .ok l) :
    0 ≤ x ∧ x < (N : Int) ∧ 0 ≤ y ∧ y < (N : Int) ∧
      l = affectedCoords N (x.toNat, y.toNat) := by
  unfold get_affected_spaces at h
  by_cases hg : x < 0 ∨ x ≥ (N : Int) ∨ y < 0 ∨ y ≥ (N : Int)
  · rw [if_pos hg] at h
    exact absurd h (by simp)
  · rw [if_neg hg] at h
    push_neg at hg
    exact ⟨hg.1, hg.2.1, hg.2.2.1, hg.2.2.2, (Except.ok.inj h).symm⟩

theorem propLoop_not_fuelOut (pol : PopPolicy) (hpol : PolSpec pol) (N : Nat)
    (hsq : intSqrt N * intSqrt N = N) :
    ∀ (fuel : Nat) (g : Grid) (st : List (Nat × Nat)),
      totalDom N g + st.length < fuel →
      propLoop pol N fuel g st ≠ .outOfFuel := by
  intro fuel
  induction fuel with
  | zero => intro g st hlt; omega
  | succ fuel ih =>
      intro g st hlt
      rw [propLoop_succ]
      generalize hp : pol st = polres
      rcases polres with _ | ⟨c, rest⟩
      · simp
      · have hlen : st.length = rest.length + 1 := by
          have := (hpol.perm _ _ _ hp).length_eq
          simpa using this
        show (match get_affected_spaces N ((g c).x : Int) ((g c).y : Int) with
          | Except.error e => PropResult.pyError e
          | Except.ok aff =>
            match narrowAll g (g c).neighbors rest aff with
            | none => PropResult.contradiction
            | some (g2, st2) => propLoop pol N fuel g2 st2)
          ≠ PropResult.outOfFuel
        rcases haff : get_affected_spaces N ((g c).x : Int) ((g c).y : Int)
          with e | aff
        · simp
        · obtain ⟨-, hx, -, hy, haffeq⟩ := get_affected_spaces_ok N _ _ aff haff
          show (match narrowAll g (g c).neighbors rest aff with
            | none => PropResult.contradiction
            | some (g2, st2) => propLoop pol N fuel g2 st2)
            ≠ PropResult.outOfFuel
          rcases hna : narrowAll g (g c).neighbors rest aff with _ | ⟨g2, st2⟩
          · simp
          · show propLoop pol N fuel g2 st2 ≠ .outOfFuel
            apply ih
            have hrange : ∀ q ∈ aff, q.1 < N ∧ q.2 < N := by
              rw [haffeq]
              exact affectedCoords_subset_range N hsq _
                (by omega) (by omega)
            have := narrowAll_measure N ((g c).neighbors) aff hrange g rest
              g2 st2 hna
            omega

/-- The popped space `T` has fully imposed its mask: every uncommitted
affected space's domain is inside `T`'s mask and non-empty. -/
def DoneAt (N : Nat) (gS : Grid) (g : Grid) (T : Nat × Nat) : Prop :=
  ∀ S ∈ affectedCoords N T, (gS S).value = none →
    (g S).possible_values ⊆ (gS T).neighbors ∧ (g S).possible_values ≠ ∅

/-- Invariant of the propagation loop relative to the starting snapshot `gS`
and the seed position: only domains change (and only shrink, staying above
the ideal narrowing and never becoming empty), every stacked coordinate is
activated (in `propClosure`), and every space is stacked, done, or untouched. -/
def LoopInv (N : Nat) (gS : Grid) (seed : Nat × Nat) (g : Grid)
    (st : List (Nat × Nat)) : Prop :=
  (∀ p : Nat × Nat, (g p).x = (gS p).x ∧ (g p).y = (gS p).y ∧
    (g p).max_value = (gS p).max_value ∧ (g p).value = (gS p).value ∧
    (g p).neighbors = (gS p).neighbors) ∧
  (∀ p : Nat × Nat, (g p).possible_values ⊆ (gS p).possible_values) ∧
  (∀ p : Nat × Nat, (gS p).value = none →
    idealDomOf N gS (propClosure N gS seed) p ⊆ (g p).possible_values) ∧
  (∀ p : Nat × Nat, (g p).possible_values ≠ (gS p).possible_values →
    ((g p).possible_values ≠ ∅ ∧ (gS p).value = none ∧
      p.1 < N ∧ p.2 < N)) ∧
  (∀ c ∈ st, c ∈ propClosure N gS seed ∧ c.1 < N ∧ c.2 < N) ∧
  (∀ T : Nat × Nat, T.1 < N → T.2 < N →
    T ∈ st ∨ DoneAt N gS g T ∨
    ((g T).possible_values = (gS T).possible_values ∧ T ≠ seed))

theorem loopInv_preserved (N : Nat) (hsq : intSqrt N * intSqrt N = N)
    (gS : Grid) (seed : Nat × Nat) (hseedr : seed.1 < N ∧ seed.2 < N)
    (g : Grid) (st : List (Nat × Nat)) (c : Nat × Nat)
    (rest : List (Nat × Nat)) (g2 : Grid) (st2 : List (Nat × Nat))
    (hinv : LoopInv N gS seed g st)
    (hperm : st.Perm (c :: rest))
    (hna : narrowAll g ((g c).neighbors) rest (affectedCoords N c)
      = some (g2, st2)) :
    LoopInv N gS seed g2 st2 := by
  obtain ⟨inv1, inv2, inv3, inv4, inv5, inv6⟩ := hinv
  have hc : c ∈ st := hperm.mem_iff.mpr (List.mem_cons_self _ _)
  obtain ⟨hccl, hc1, hc2⟩ := inv5 c hc
  have hmask : (g c).neighbors = (gS c).neighbors := (inv1 c).2.2.2.2
  have happly := narrowAll_some_apply ((g c).neighbors) _ _ _ _ _ hna
  have hstk := narrowAll_some_stack ((g c).neighbors) _ _ _ _ _ hna
  have haffr := affectedCoords_subset_range N hsq c hc1 hc2
  refine ⟨?_, ?_, ?_, ?_, ?_, ?_⟩
  · intro p
    obtain ⟨⟨f1, f2, f3, f4, f5⟩, -, -⟩ := happly p
    obtain ⟨o1, o2, o3, o4, o5⟩ := inv1 p
    exact ⟨f1.trans o1, f2.trans o2, f3.trans o3, f4.trans o4, f5.trans o5⟩
  · intro p
    obtain ⟨-, h2, h3⟩ := happly p
    by_cases hcond : p ∈ affectedCoords N c ∧ (g p).value = none
    · obtain ⟨hpe, -⟩ := h2 hcond.1 hcond.2
      rw [hpe]
      exact subset_trans Finset.inter_subset_left (inv2 p)
    · have heq : (g2 p).possible_values = (g p).possible_values := by
        rcases Decidable.not_and_iff_or_not.mp hcond with h | h
        · exact h3 (Or.inl h)
        · exact h3 (Or.inr h)
      rw [heq]
      exact inv2 p
  · intro p hpv
    have hpvg : (g p).value = none := by
      rw [(inv1 p).2.2.2.1]
      exact hpv
    obtain ⟨-, h2, h3⟩ := happly p
    by_cases hmem : p ∈ affectedCoords N c
    · obtain ⟨hpe, -⟩ := h2 hmem hpvg
      rw [hpe]
      intro v hv
      refine Finset.mem_inter.mpr ⟨inv3 p hpv hv, ?_⟩
      rw [hmask]
      exact idealDomOf_subset_mask N gS _ p c hccl hmem hv
    · rw [h3 (Or.inl hmem)]
      exact inv3 p hpv
  · intro p hpch
    obtain ⟨-, h2, h3⟩ := happly p
    by_cases heq : (g2 p).possible_values = (g p).possible_values
    · rw [heq] at hpch ⊢
      exact inv4 p hpch
    · have hcond : p ∈ affectedCoords N c ∧ (g p).value = none := by
        by_contra hno
        rcases Decidable.not_and_iff_or_not.mp hno with h | h
        · exact heq (h3 (Or.inl h))
        · exact heq (h3 (Or.inr h))
      obtain ⟨hpe, hpne⟩ := h2 hcond.1 hcond.2
      have hrange := haffr p hcond.1
      refine ⟨hpne, ?_, hrange.1, hrange.2⟩
      rw [← (inv1 p).2.2.2.1]
      exact hcond.2
  · intro c2 hc2m
    rcases hstk.2.1 c2 hc2m with hrest | ⟨hcaff, hcv, hcne, hcch⟩
    · exact inv5 c2 (hperm.mem_iff.mpr (List.mem_cons_of_mem _ hrest))
    · have hrange := haffr c2 hcaff
      have hcvS : (gS c2).value = none := by
        rw [← (inv1 c2).2.2.2.1]
        exact hcv
      refine ⟨?_, hrange.1, hrange.2⟩
      have hfix := propClosure_fixed N gS seed
        (Finset.mem_product.mpr ⟨Finset.mem_range.mpr hseedr.1,
          Finset.mem_range.mpr hseedr.2⟩)
      rw [← hfix]
      apply Finset.mem_union_right
      rw [Finset.mem_filter]
      refine ⟨Finset.mem_product.mpr ⟨Finset.mem_range.mpr hrange.1,
        Finset.mem_range.mpr hrange.2⟩, hcvS, ⟨c, hccl, hcaff⟩, ?_⟩
      have hideal : idealDomOf N gS (propClosure N gS seed) c2 ⊆
          (g c2).possible_values ∩ (g c).neighbors := by
        intro v hv
        refine Finset.mem_inter.mpr ⟨inv3 c2 hcvS hv, ?_⟩
        rw [hmask]
        exact idealDomOf_subset_mask N gS _ c2 c hccl hcaff hv
      have hssub : (g c2).possible_values ∩ (g c).neighbors
          ⊂ (g c2).possible_values :=
        Finset.ssubset_iff_subset_ne.mpr
          ⟨Finset.inter_subset_left, fun hceq => hcch hceq.symm⟩
      intro heqD
      obtain ⟨v, hvin, hvout⟩ := Finset.exists_of_ssubset hssub
      have hvD0 : v ∈ (gS c2).possible_values := inv2 c2 hvin
      have hvideal : v ∈ idealDomOf N gS (propClosure N gS seed) c2 := by
        rw [heqD]
        exact hvD0
      exact hvout (hideal hvideal)
  · intro T hT1 hT2
    by_cases hTc : T = c
    · subst hTc
      right; left
      intro S hSmem hSv
      have hSvg : (g S).value = none := by
        rw [(inv1 S).2.2.2.1]
        exact hSv
      obtain ⟨-, h2, -⟩ := happly S
      obtain ⟨hSe, hSne⟩ := h2 hSmem hSvg
      constructor
      · rw [hSe, ← hmask]
        exact Finset.inter_subset_right
      · exact hSne
    · rcases inv6 T hT1 hT2 with hTst | hTdone | hTun
      · rcases List.mem_cons.mp (hperm.mem_iff.mp hTst) with rfl | hTrest
        · exact absurd rfl hTc
        · exact Or.inl (hstk.1 T hTrest)
      · right; left
        intro S hSmem hSv
        obtain ⟨hd1, hd2⟩ := hTdone S hSmem hSv
        obtain ⟨-, h2, h3⟩ := happly S
        by_cases heq : (g2 S).possible_values = (g S).possible_values
        · rw [heq]
          exact ⟨hd1, hd2⟩
        · have hScond : S ∈ affectedCoords N c ∧ (g S).value = none := by
            by_contra hno
            rcases Decidable.not_and_iff_or_not.mp hno with h | h
            · exact heq (h3 (Or.inl h))
            · exact heq (h3 (Or.inr h))
          obtain ⟨hSe, hSne⟩ := h2 hScond.1 hScond.2
          rw [hSe]
          exact ⟨subset_trans Finset.inter_subset_left hd1,
            by rw [← hSe]; exact hSne⟩
      · by_cases heq : (g2 T).possible_values = (g T).possible_values
        · right; right
          rw [heq]
          exact hTun
        · exact Or.inl (hstk.2.2 T heq)

theorem propLoop_master (pol : PopPolicy) (hpol : PolSpec pol) (N : Nat)
    (hsq : intSqrt N * intSqrt N = N) (gS : Grid) (seed : Nat × Nat)
    (hseedr : seed.1 < N ∧ seed.2 < N)
    (hcohS : ∀ p : Nat × Nat, p.1 < N → p.2 < N →
      (gS p).x = p.1 ∧ (gS p).y = p.2) :
    ∀ (fuel : Nat) (g : Grid) (st : List (Nat × Nat)),
      LoopInv N gS seed g st →
      ((∀ g', propLoop pol N fuel g st = .success g' →
          LoopInv N gS seed g' []) ∧
       (propLoop pol N fuel g st = .contradiction →
         ∃ S : Nat × Nat, (gS S).value = none ∧
           (∃ T ∈ propClosure N gS seed, S ∈ affectedCoords N T) ∧
           idealDomOf N gS (propClosure N gS seed) S = ∅) ∧
       (∀ e, propLoop pol N fuel g st ≠ .pyError e)) := by
  intro fuel
  induction fuel with
  | zero =>
      intro g st _
      refine ⟨?_, ?_, ?_⟩
      · intro g' hg'
        rw [propLoop_zero] at hg'
        exact absurd hg' (by simp)
      · intro hcon
        rw [propLoop_zero] at hcon
        exact absurd hcon (by simp)
      · intro e he
        rw [propLoop_zero] at he
        exact absurd he (by simp)
  | succ fuel ih =>
      intro g st hinv
      rcases hp : pol st with _ | ⟨c, rest⟩
      · have hst : st = [] := (hpol.none_iff st).mp hp
        subst hst
        have hres : propLoop pol N (fuel + 1) g [] = .success g := by
          rw [propLoop_succ, hp]
        refine ⟨?_, ?_, ?_⟩
        · intro g' hg'
          rw [hres] at hg'
          obtain rfl : g = g' := PropResult.success.inj hg'
          exact hinv
        · intro hcon
          rw [hres] at hcon
          exact absurd hcon (by simp)
        · intro e he
          rw [hres] at he
          exact absurd he (by simp)
      · obtain ⟨hccl, hc1, hc2⟩ := hinv.2.2.2.2.1 c
          ((hpol.perm _ _ _ hp).mem_iff.mpr (List.mem_cons_self _ _))
        have hgx : ((g c).x : Int) = (c.1 : Int) := by
          rw [(hinv.1 c).1, (hcohS c hc1 hc2).1]
        have hgy : ((g c).y : Int) = (c.2 : Int) := by
          rw [(hinv.1 c).2.1, (hcohS c hc1 hc2).2]
        have hres : propLoop pol N (fuel + 1) g st =
            (match narrowAll g (g c).neighbors rest (affectedCoords N c) with
             | none => PropResult.contradiction
             | some (g2, st2) => propLoop pol N fuel g2 st2) := by
          rw [propLoop_succ, hp]
          show (match get_affected_spaces N ((g c).x : Int) ((g c).y : Int) with
            | .error e => PropResult.pyError e
            | .ok aff =>
              match narrowAll g (g c).neighbors rest aff with
              | none => PropResult.contradiction
              | some (g2, st2) => propLoop pol N fuel g2 st2) = _
          rw [hgx, hgy, get_affected_spaces_in_range N c.1 c.2 hc1 hc2]
        rcases hna : narrowAll g (g c).neighbors rest (affectedCoords N c)
          with _ | ⟨g2, st2⟩
        · rw [hna] at hres
          have hres2 : propLoop pol N (fuel + 1) g st = .contradiction := hres
          refine ⟨?_, ?_, ?_⟩
          · intro g' hg'
            rw [hres2] at hg'
            exact absurd hg' (by simp)
          · intro _
            obtain ⟨q, hqmem, hqv, hq0⟩ := narrowAll_none _ _ _ _ hna
            have hqvS : (gS q).value = none := by
              rw [← (hinv.1 q).2.2.2.1]
              exact hqv
            refine ⟨q, hqvS, ⟨c, hccl, hqmem⟩, ?_⟩
            have hsub : idealDomOf N gS (propClosure N gS seed) q ⊆
                (g q).possible_values ∩ (g c).neighbors := by
              intro v hv
              refine Finset.mem_inter.mpr ⟨hinv.2.2.1 q hqvS hv, ?_⟩
              rw [(hinv.1 c).2.2.2.2]
              exact idealDomOf_subset_mask N gS _ q c hccl hqmem hv
            rw [hq0] at hsub
            exact Finset.subset_empty.mp hsub
          · intro e he
            rw [hres2] at he
            exact absurd he (by simp)
        · rw [hna] at hres
          have hres2 : propLoop pol N (fuel + 1) g st
              = propLoop pol N fuel g2 st2 := hres
          have hinv2 := loopInv_preserved N hsq gS seed hseedr g st c rest
            g2 st2 hinv (hpol.perm _ _ _ hp) hna
          obtain ⟨ihs, ihc, ihp⟩ := ih g2 st2 hinv2
          exact ⟨fun g' hg' => ihs g' (hres2.symm.trans hg'),
            fun hcon => ihc (hres2.symm.trans hcon),
            fun e he => ihp e (hres2.symm.trans he)⟩

theorem loopInv_done_all (N : Nat) (gS : Grid) (seed : Nat × Nat)
    (hseedr : seed.1 < N ∧ seed.2 < N) (g' : Grid)
    (hinv : LoopInv N gS seed g' []) :
    ∀ k : Nat, ∀ T ∈ closIter N gS seed k, DoneAt N gS g' T := by
  intro k
  induction k with
  | zero =>
      intro T hT
      obtain rfl := Finset.mem_singleton.mp hT
      rcases hinv.2.2.2.2.2 T hseedr.1 hseedr.2 with h | h | h
      · exact absurd h (List.not_mem_nil T)
      · exact h
      · exact absurd rfl h.2
  | succ k ih =>
      intro T hT
      rcases Finset.mem_union.mp hT with hT | hT
      · exact ih T hT
      · rw [Finset.mem_filter] at hT
        obtain ⟨hTall, hTv, ⟨T', hT', hTaff⟩, hTne⟩ := hT
        have hTr : T.1 < N ∧ T.2 < N := by
          rw [allCoords, Finset.mem_product, Finset.mem_range,
            Finset.mem_range] at hTall
          exact hTall
        have hch : (g' T).possible_values ≠ (gS T).possible_values := by
          intro heq
          apply hTne
          apply Finset.Subset.antisymm (idealDomOf_subset N gS _ T)
          intro v hv
          rw [idealDomOf, Finset.mem_filter]
          refine ⟨hv, fun T2 hT2 hmem2 => ?_⟩
          apply (ih T2 hT2 T hmem2 hTv).1
          rw [heq]
          exact hv
        rcases hinv.2.2.2.2.2 T hTr.1 hTr.2 with h | h | h
        · exact absurd h (List.not_mem_nil T)
        · exact h
        · exact absurd h.1 hch

theorem loopInv_final_domains (N : Nat) (gS : Grid) (seed : Nat × Nat)
    (hseedr : seed.1 < N ∧ seed.2 < N) (g' : Grid)
    (hinv : LoopInv N gS seed g' []) :
    ∀ p : Nat × Nat, (gS p).value = none →
      (g' p).possible_values = idealDomOf N gS (propClosure N gS seed) p := by
  intro p hpv
  apply Finset.Subset.antisymm
  · intro v hv
    rw [idealDomOf, Finset.mem_filter]
    refine ⟨hinv.2.1 p hv, fun T hT hmem => ?_⟩
    exact (loopInv_done_all N gS seed hseedr g' hinv (N * N) T hT p hmem hpv).1 hv
  · exact hinv.2.2.1 p hpv

theorem loopInv_no_empty (N : Nat) (gS : Grid) (seed : Nat × Nat)
    (hseedr : seed.1 < N ∧ seed.2 < N) (g' : Grid)
    (hinv : LoopInv N gS seed g' []) :
    ∀ S : Nat × Nat, (gS S).value = none →
      (∃ T ∈ propClosure N gS seed, S ∈ affectedCoords N T) →
      idealDomOf N gS (propClosure N gS seed) S ≠ ∅ := by
  rintro S hSv ⟨T, hT, hmem⟩ h0
  have hne := (loopInv_done_all N gS seed hseedr g' hinv (N * N) T hT
    S hmem hSv).2
  rw [loopInv_final_domains N gS seed hseedr g' hinv S hSv] at hne
  exact hne h0

/-- The starting snapshot of a propagation: the board copy with the selected
space's slot overwritten by the collapsed space. -/
def seedGrid (g : Grid) (t : SudokuSpace) : Grid := gridUpdate g (t.x, t.y) t

/-- The condition under which propagation from `t` runs into a contradiction:
some uncommitted space affected by an activated space has its domain narrowed
to the empty set by the activated masks. -/
def ContraCond (N : Nat) (g : Grid) (t : SudokuSpace) : Prop :=
  ∃ S : Nat × Nat, (seedGrid g t S).value = none ∧
    (∃ T ∈ propClosure N (seedGrid g t) (t.x, t.y), S ∈ affectedCoords N T) ∧
    idealDomOf N (seedGrid g t) (propClosure N (seedGrid g t) (t.x, t.y)) S = ∅

/-- Space-wise description of a successful propagation result: uncommitted
spaces get the ideal narrowing of their domain, everything else (committed
spaces, and every other field) is exactly as in the starting snapshot. -/
def idealResult (N : Nat) (g : Grid) (t : SudokuSpace) (p : Nat × Nat) :
    SudokuSpace :=
  if (seedGrid g t p).value = none then
    ⟨(seedGrid g t p).x, (seedGrid g t p).y, (seedGrid g t p).max_value,
     (seedGrid g t p).value,
     idealDomOf N (seedGrid g t) (propClosure N (seedGrid g t) (t.x, t.y)) p,
     (seedGrid g t p).neighbors⟩
  else seedGrid g t p

theorem propegateWith_characterization (pol : PopPolicy) (hpol : PolSpec pol)
    (N : Nat) (hsq : intSqrt N * intSqrt N = N) (g : Grid) (t : SudokuSpace)
    (hcoh : ∀ p : Nat × Nat, p.1 < N → p.2 < N →
      (g p).x = p.1 ∧ (g p).y = p.2)
    (htx : t.x < N) (hty : t.y < N) :
    (propegateWith pol N g t = .contradiction ↔ ContraCond N g t) ∧
    (∀ g', propegateWith pol N g t = .success g' →
      ∀ p : Nat × Nat, g' p = idealResult N g t p) ∧
    ((∃ g', propegateWith pol N g t = .success g') ∨
      propegateWith pol N g t = .contradiction) := by
  have hseedr : ((t.x, t.y) : Nat × Nat).1 < N ∧ ((t.x, t.y) : Nat × Nat).2 < N :=
    ⟨htx, hty⟩
  have hcohS : ∀ p : Nat × Nat, p.1 < N → p.2 < N →
      (seedGrid g t p).x = p.1 ∧ (seedGrid g t p).y = p.2 := by
    intro p hp1 hp2
    by_cases hps : p = (t.x, t.y)
    · subst hps
      rw [seedGrid, gridUpdate_same]
      exact ⟨rfl, rfl⟩
    · rw [seedGrid, gridUpdate_ne _ _ _ _ hps]
      exact hcoh p hp1 hp2
  have hinit : LoopInv N (seedGrid g t) (t.x, t.y) (seedGrid g t) [(t.x, t.y)] := by
    refine ⟨fun p => ⟨rfl, rfl, rfl, rfl, rfl⟩, fun p => subset_rfl,
      fun p _ => idealDomOf_subset N (seedGrid g t) _ p,
      fun p hp => absurd rfl hp, ?_, ?_⟩
    · intro c hc
      obtain rfl := List.mem_singleton.mp hc
      exact ⟨seed_mem_propClosure N (seedGrid g t) _, htx, hty⟩
    · intro T _ _
      by_cases hT : T = (t.x, t.y)
      · subst hT
        exact Or.inl (List.mem_singleton.mpr rfl)
      · exact Or.inr (Or.inr ⟨rfl, hT⟩)
  have heqprop : propegateWith pol N g t =
      propLoop pol N (propFuel N (seedGrid g t)) (seedGrid g t) [(t.x, t.y)] :=
    rfl
  obtain ⟨hms, hmc, hmp⟩ := propLoop_master pol hpol N hsq (seedGrid g t)
    (t.x, t.y) hseedr hcohS (propFuel N (seedGrid g t)) (seedGrid g t)
    [(t.x, t.y)] hinit
  have hnofuel := propLoop_not_fuelOut pol hpol N hsq
    (propFuel N (seedGrid g t)) (seedGrid g t) [(t.x, t.y)]
    (by rw [propFuel_eq]; simp)
  have hsuccshape : ∀ g', propegateWith pol N g t = .success g' →
      ∀ p : Nat × Nat, g' p = idealResult N g t p := by
    intro g' hg' p
    rw [heqprop] at hg'
    have minv := hms g' hg'
    unfold idealResult
    by_cases hpv : (seedGrid g t p).value = none
    · rw [if_pos hpv]
      ext1
      · exact (minv.1 p).1
      · exact (minv.1 p).2.1
      · exact (minv.1 p).2.2.1
      · exact (minv.1 p).2.2.2.1
      · exact loopInv_final_domains N (seedGrid g t) (t.x, t.y) hseedr g'
          minv p hpv
      · exact (minv.1 p).2.2.2.2
    · rw [if_neg hpv]
      have hunch : (g' p).possible_values = (seedGrid g t p).possible_values := by
        by_contra hch
        exact hpv (minv.2.2.2.1 p hch).2.1
      ext1
      · exact (minv.1 p).1
      · exact (minv.1 p).2.1
      · exact (minv.1 p).2.2.1
      · exact (minv.1 p).2.2.2.1
      · exact hunch
      · exact (minv.1 p).2.2.2.2
  refine ⟨⟨?_, ?_⟩, hsuccshape, ?_⟩
  · intro hcon
    rw [heqprop] at hcon
    exact hmc hcon
  · intro hcc
    rcases hres : propegateWith pol N g t with g' | _ | e | _
    · exfalso
      obtain ⟨S, hSv, hSaff, hS0⟩ := hcc
      have minv := hms g' (heqprop ▸ hres)
      exact loopInv_no_empty N (seedGrid g t) (t.x, t.y) hseedr g' minv
        S hSv hSaff hS0
    · rfl
    · exact absurd (heqprop ▸ hres) (hmp e)
    · exact absurd (heqprop ▸ hres) hnofuel
  · rcases hres : propegateWith pol N g t with g' | _ | e | _
    · exact Or.inl ⟨g', rfl⟩
    · exact Or.inr rfl
    · exact absurd (heqprop ▸ hres) (hmp e)
    · exact absurd (heqprop ▸ hres) hnofuel

/-- C5: propagation failure characterization.  For every (coherent) board
and collapsed space `t` at an in-range slot, `propegate` signals
Contradiction exactly when the worklist narrowing empties the domain of some
uncommitted affected space (`ContraCond`: an uncommitted space affected by
an activated space whose ideal narrowing is empty); otherwise it returns a
new whole-board snapshot in which exactly the directly and transitively
affected uncommitted spaces have their domains narrowed accordingly
(`idealResult`), and one of the two outcomes always happens. -/
theorem propegate_characterization (N : Nat)
    (hsq : intSqrt N * intSqrt N = N) (g : Grid) (t : SudokuSpace)
    (hcoh : ∀ p : Nat × Nat, p.1 < N → p.2 < N →
      (g p).x = p.1 ∧ (g p).y = p.2)
    (htx : t.x < N) (hty : t.y < N) :
    (SudokuBoard.propegate N g t = .contradiction ↔ ContraCond N g t) ∧
    (∀ g', SudokuBoard.propegate N g t = .success g' →
      ∀ p : Nat × Nat, g' p = idealResult N g t p) ∧
    ((∃ g', SudokuBoard.propegate N g t = .success g') ∨
      SudokuBoard.propegate N g t = .contradiction) :=
  propegateWith_characterization lifoPop lifoPop_spec N hsq g t hcoh htx hty

theorem propegate_characterization_witness :
    (SudokuBoard.propegate 4 (mkEmptyGrid 4) ⟨0, 0, 4, some 1, {1},
        (fullRange 4).erase 1⟩ = .contradiction ↔
      ContraCond 4 (mkEmptyGrid 4) ⟨0, 0, 4, some 1, {1},
        (fullRange 4).erase 1⟩) ∧
    ((∃ g', SudokuBoard.propegate 4 (mkEmptyGrid 4) ⟨0, 0, 4, some 1, {1},
        (fullRange 4).erase 1⟩ = .success g') ∨
      SudokuBoard.propegate 4 (mkEmptyGrid 4) ⟨0, 0, 4, some 1, {1},
        (fullRange 4).erase 1⟩ = .contradiction) :=
  ⟨(propegate_characterization 4 (by decide) (mkEmptyGrid 4) _
      (fun p _ _ => ⟨rfl, rfl⟩) (by decide) (by decide)).1,
   (propegate_characterization 4 (by decide) (mkEmptyGrid 4) _
      (fun p _ _ => ⟨rfl, rfl⟩) (by decide) (by decide)).2.2⟩

/-- C8: worklist-order independence.  Running the propagation loop with the
implemented LIFO stack and with a FIFO queue yields the same outcome: they
signal Contradiction in exactly the same cases, and on success the two
resulting snapshots have equal domains at every space. -/
theorem worklist_order_independence (N : Nat)
    (hsq : intSqrt N * intSqrt N = N) (g : Grid) (t : SudokuSpace)
    (hcoh : ∀ p : Nat × Nat, p.1 < N → p.2 < N →
      (g p).x = p.1 ∧ (g p).y = p.2)
    (htx : t.x < N) (hty : t.y < N) :
    (SudokuBoard.propegate N g t = .contradiction ↔
      propegateWith fifoPop N g t = .contradiction) ∧
    (∀ g1 g2, SudokuBoard.propegate N g t = .success g1 →
      propegateWith fifoPop N g t = .success g2 →
      ∀ p : Nat × Nat, (g1 p).possible_values = (g2 p).possible_values) := by
  obtain ⟨hl1, hl2, -⟩ := propegateWith_characterization lifoPop lifoPop_spec
    N hsq g t hcoh htx hty
  obtain ⟨hf1, hf2, -⟩ := propegateWith_characterization fifoPop fifoPop_spec
    N hsq g t hcoh htx hty
  refine ⟨hl1.trans hf1.symm, ?_⟩
  intro g1 g2 h1 h2 p
  rw [hl2 g1 h1 p, hf2 g2 h2 p]

theorem worklist_order_independence_witness :
    (SudokuBoard.propegate 4 gC2 ⟨0, 0, 4, some 1, {1},
        (fullRange 4).erase 1⟩ = .contradiction ↔
      propegateWith fifoPop 4 gC2 ⟨0, 0, 4, some 1, {1},
        (fullRange 4).erase 1⟩ = .contradiction) ∧
    (∀ g1 g2, SudokuBoard.propegate 4 gC2 ⟨0, 0, 4, some 1, {1},
        (fullRange 4).erase 1⟩ = .success g1 →
      propegateWith fifoPop 4 gC2 ⟨0, 0, 4, some 1, {1},
        (fullRange 4).erase 1⟩ = .success g2 →
      ∀ p : Nat × Nat, (g1 p).possible_values = (g2 p).possible_values) :=
  worklist_order_independence 4 (by decide) gC2 _
    (by
      intro p hp1 hp2
      unfold gC2
      by_cases h1 : p = (0, 0)
      · rw [if_pos h1, h1]
        exact ⟨rfl, rfl⟩
      · rw [if_neg h1]
        by_cases h2 : p = (1, 0)
        · rw [if_pos h2, h2]
          exact ⟨rfl, rfl⟩
        · rw [if_neg h2]
          exact ⟨rfl, rfl⟩)
    (by decide) (by decide)

/-! ### Heap-level model of `propegate` for the frame property (C6).

The pure model above cannot express mutation of the receiver, so the frame
claim is stated against a heap model with explicit object identity: a `Heap`
maps references to `SudokuSpace` records, the receiver board stores
references, and every statement of `propegate` that writes an attribute
becomes an explicit heap write at the written object's reference.  The copy
phase allocates only fresh references at or above a watermark `alloc`; the
theorem shows every reference below the watermark (in particular every space
of the receiver, and every space of any snapshot the driver retained) is
unchanged whatever the outcome. -/

def Heap := Nat → SudokuSpace

/-- Attribute assignment `obj.attr = v`: update the record at reference `r`. -/
def heapUpdate (h : Heap) (r : Nat) (s : SudokuSpace) : Heap :=
  fun r2 => if r2 = r then s else h r2

/-- References of `current_board_copy` after the seed overwrite: the nested
comprehension allocates row-major fresh copies at `alloc + y*N + x`, then
`current_board_copy[selected_tile.y][selected_tile.x] = selected_tile.copy()`
replaces the entry at the selected slot by the separately allocated copy at
`alloc + N*N`. -/
def copyTable (N alloc tx ty : Nat) : Nat × Nat → Nat :=
  fun p => if p = (tx, ty) then alloc + N * N else alloc + (p.2 * N + p.1)

/-- Heap after the copy phase: each fresh reference `alloc + y*N + x` holds a
copy of the receiver's space at `(x, y)` (`copy()` reproduces `x`, `y`,
`max_value`, `value` and copies of both sets, so the record is equal), the
reference `alloc + N*N` holds the copy of the selected tile, and every other
reference is untouched. -/
def heapAfterCopy (N alloc : Nat) (b : Nat × Nat → Nat) (rt : Nat)
    (h : Heap) : Heap :=
  fun r =>
    if r = alloc + N * N then h rt
    else if alloc ≤ r ∧ r < alloc + N * N then
      h (b ((r - alloc) % N, (r - alloc) / N))
    else h r

/-- The inner `for space in self.get_affected_spaces(...)` loop on the heap:
the iterated objects are the references of the affected `current_board_copy`
entries; `space.possible_values = new_options` is a heap write at that
reference, `if not space in stack` compares references, and `return None`
aborts with the heap as it stands (`.error`). -/
def narrowAllH (h : Heap) (mask : Finset Int)
    (st : List Nat) : List Nat → Except Heap (Heap × List Nat)
  | [] => .ok (h, st)
  | r :: rs =>
    if (h r).value ≠ none then narrowAllH h mask st rs
    else
      if (h r).possible_values ∩ mask ≠ ∅ ∧
          (h r).possible_values ≠ (h r).possible_values ∩ mask then
        narrowAllH
          (heapUpdate h r ⟨(h r).x, (h r).y, (h r).max_value, (h r).value,
            (h r).possible_values ∩ mask, (h r).neighbors⟩)
          mask (if r ∈ st then st else st ++ [r]) rs
      else if (h r).possible_values ∩ mask = ∅ then .error h
      else narrowAllH h mask st rs

/-- Outcome of the heap-level loop; every constructor carries the final heap
so that the frame property can be stated for all outcomes. -/
inductive PropResultH where
  /-- Loop finished; a fresh `SudokuBoard` wrapping the copies is returned. -/
  | success (h : Heap)
  /-- `return None`. -/
  | contradiction (h : Heap)
  /-- A Python exception escaped. -/
  | pyError (e : Err) (h : Heap)
  /-- Fuel exhaustion of the embedding. -/
  | outOfFuel (h : Heap)

/-- The heap each outcome leaves behind. -/
def heapOf : PropResultH → Heap
  | .success h => h
  | .contradiction h => h
  | .pyError _ h => h
  | .outOfFuel h => h

/-- The `while len(stack) > 0` loop on the heap.  The stack holds references
(it is seeded with the caller's `selected_tile` object itself); each
iteration pops the last one, reads its coordinates and `neighbors` from the
heap, and narrows the affected copies (`ct` maps an affected coordinate to
the reference stored in `current_board_copy`). -/
def propLoopH (N : Nat) (ct : Nat × Nat → Nat) :
    Nat → Heap → List Nat → PropResultH
  | 0, h, _ => .outOfFuel h
  | fuel + 1, h, st =>
    match st.getLast? with
    | none => .success h
    | some r =>
      match get_affected_spaces N ((h r).x : Int) ((h r).y : Int) with
      | .error e => .pyError e h
      | .ok aff =>
        match narrowAllH h (h r).neighbors st.dropLast (aff.map ct) with
        | .error h2 => .contradiction h2
        | .ok (h2, st2) => propLoopH N ct fuel h2 st2

/-- `SudokuBoard.propegate` on the heap: `b` holds the references of the
receiver's `self.wavefunction` entries, `rt` the reference of the caller's
`selected_tile`, and `alloc` the allocation watermark (every live object sits
below it).  The copy phase writes only fresh references, the stack starts as
`[selected_tile]`, and the loop runs with the same fuel bound as the pure
model. -/
def propegateH (N : Nat) (b : Nat × Nat → Nat) (rt alloc : Nat)
    (h : Heap) : PropResultH :=
  let h1 := heapAfterCopy N alloc b rt h
  let ct := copyTable N alloc (h rt).x (h rt).y
  propLoopH N ct
    ((∑ p ∈ Finset.range N ×ˢ Finset.range N,
      ((h1 (ct p)).possible_values).card) + 2) h1 [rt]

theorem heapUpdate_ne (h : Heap) (r : Nat) (s : SudokuSpace) (r2 : Nat)
    (hne : r2 ≠ r) : heapUpdate h r s r2 = h r2 := if_neg hne

theorem narrowAllH_nil (h : Heap) (mask : Finset Int) (st : List Nat) :
    narrowAllH h mask st [] = .ok (h, st) := rfl

theorem narrowAllH_cons (h : Heap) (mask : Finset Int) (st : List Nat)
    (r : Nat) (rs : List Nat) :
    narrowAllH h mask st (r :: rs) =
      if (h r).value ≠ none then narrowAllH h mask st rs
      else if (h r).possible_values ∩ mask ≠ ∅ ∧
          (h r).possible_values ≠ (h r).possible_values ∩ mask then
        narrowAllH
          (heapUpdate h r ⟨(h r).x, (h r).y, (h r).max_value, (h r).value,
            (h r).possible_values ∩ mask, (h r).neighbors⟩)
          mask (if r ∈ st then st else st ++ [r]) rs
      else if (h r).possible_values ∩ mask = ∅ then .error h
      else narrowAllH h mask st rs := rfl

/-- The inner loop writes only at the iterated references: any other
reference holds the same record afterwards, in both the completed and the
aborted (`return None`) case. -/
theorem narrowAllH_frame (mask : Finset Int) :
    ∀ (rs : List Nat) (h : Heap) (st : List Nat) (r : Nat), r ∉ rs →
      (∀ h2 st2, narrowAllH h mask st rs = .ok (h2, st2) → h2 r = h r) ∧
      (∀ h2, narrowAllH h mask st rs = .error h2 → h2 r = h r) := by
  intro rs
  induction rs with
  | nil =>
      intro h st r _
      refine ⟨fun h2 st2 he => ?_, fun h2 he => ?_⟩
      · rw [narrowAllH_nil] at he
        injection he with he2
        exact congrFun (congrArg Prod.fst he2).symm r
      · rw [narrowAllH_nil] at he
        exact absurd he (by simp)
  | cons q rs ih =>
      intro h st r hr
      have hrq : r ≠ q := fun he => hr (he ▸ List.mem_cons_self _ _)
      have hrs : r ∉ rs := fun he => hr (List.mem_cons_of_mem _ he)
      refine ⟨fun h2 st2 he => ?_, fun h2 he => ?_⟩
      · rw [narrowAllH_cons] at he
        by_cases hv : (h q).value ≠ none
        · rw [if_pos hv] at he
          exact (ih h st r hrs).1 h2 st2 he
        · rw [if_neg hv] at he
          by_cases hch : (h q).possible_values ∩ mask ≠ ∅ ∧
              (h q).possible_values ≠ (h q).possible_values ∩ mask
          · rw [if_pos hch] at he
            have := (ih _ _ r hrs).1 h2 st2 he
            rw [this, heapUpdate_ne _ _ _ _ hrq]
          · rw [if_neg hch] at he
            by_cases hemp : (h q).possible_values ∩ mask = ∅
            · rw [if_pos hemp] at he
              exact absurd he (by simp)
            · rw [if_neg hemp] at he
              exact (ih h st r hrs).1 h2 st2 he
      · rw [narrowAllH_cons] at he
        by_cases hv : (h q).value ≠ none
        · rw [if_pos hv] at he
          exact (ih h st r hrs).2 h2 he
        · rw [if_neg hv] at he
          by_cases hch : (h q).possible_values ∩ mask ≠ ∅ ∧
              (h q).possible_values ≠ (h q).possible_values ∩ mask
          · rw [if_pos hch] at he
            have := (ih _ _ r hrs).2 h2 he
            rw [this, heapUpdate_ne _ _ _ _ hrq]
          · rw [if_neg hch] at he
            by_cases hemp : (h q).possible_values ∩ mask = ∅
            · rw [if_pos hemp] at he
              injection he with he2
              rw [← he2]
            · rw [if_neg hemp] at he
              exact (ih h st r hrs).2 h2 he

/-- The whole loop writes only at references produced by `ct`: every
reference outside the range of `ct` is unchanged, whatever the outcome. -/
theorem propLoopH_frame (N : Nat) (ct : Nat × Nat → Nat) (r : Nat)
    (hct : ∀ p, ct p ≠ r) :
    ∀ (fuel : Nat) (h : Heap) (st : List Nat),
      heapOf (propLoopH N ct fuel h st) r = h r := by
  intro fuel
  induction fuel with
  | zero => intro h st; rfl
  | succ fuel ih =>
      intro h st
      have hstep : propLoopH N ct (fuel + 1) h st =
          (match st.getLast? with
          | none => .success h
          | some q =>
            match get_affected_spaces N ((h q).x : Int) ((h q).y : Int) with
            | .error e => .pyError e h
            | .ok aff =>
              match narrowAllH h (h q).neighbors st.dropLast (aff.map ct) with
              | .error h2 => .contradiction h2
              | .ok (h2, st2) => propLoopH N ct fuel h2 st2) := rfl
      rw [hstep]
      cases hpop : st.getLast? with
      | none => rfl
      | some q =>
          show heapOf (match get_affected_spaces N ((h q).x : Int)
              ((h q).y : Int) with
            | .error e => .pyError e h
            | .ok aff =>
              match narrowAllH h (h q).neighbors st.dropLast (aff.map ct) with
              | .error h2 => .contradiction h2
              | .ok (h2, st2) => propLoopH N ct fuel h2 st2) r = h r
          cases haff : get_affected_spaces N ((h q).x : Int)
              ((h q).y : Int) with
          | error e => rfl
          | ok aff =>
              show heapOf (match narrowAllH h (h q).neighbors st.dropLast
                  (aff.map ct) with
                | .error h2 => .contradiction h2
                | .ok (h2, st2) => propLoopH N ct fuel h2 st2) r = h r
              have hnotin : r ∉ aff.map ct := by
                intro hmem
                obtain ⟨p, -, hp⟩ := List.mem_map.1 hmem
                exact hct p hp
              cases hna : narrowAllH h (h q).neighbors st.dropLast
                  (aff.map ct) with
              | error h2 =>
                  show h2 r = h r
                  exact (narrowAllH_frame (h q).neighbors (aff.map ct) h
                    st.dropLast r hnotin).2 h2 hna
              | ok pr =>
                  show heapOf (propLoopH N ct fuel pr.1 pr.2) r = h r
                  rw [ih pr.1 pr.2]
                  exact (narrowAllH_frame (h q).neighbors (aff.map ct) h
                    st.dropLast r hnotin).1 pr.1 pr.2 (by rw [hna])

/-- The copy phase touches no reference below the watermark. -/
theorem heapAfterCopy_frame (N alloc : Nat) (b : Nat × Nat → Nat) (rt : Nat)
    (h : Heap) (r : Nat) (hr : r < alloc) :
    heapAfterCopy N alloc b rt h r = h r := by
  unfold heapAfterCopy
  rw [if_neg (by omega), if_neg (by omega)]

/-- Every reference produced by the copy table sits at or above the
watermark. -/
theorem copyTable_ge (N alloc tx ty : Nat) (p : Nat × Nat) :
    alloc ≤ copyTable N alloc tx ty p := by
  unfold copyTable
  by_cases hp : p = (tx, ty)
  · rw [if_pos hp]; omega
  · rw [if_neg hp]; omega

/-- C6: propagation does not mutate the receiver.  For every receiver board
`b` (references into the heap `h`), selected tile reference `rt` and
allocation watermark `alloc` with every receiver reference below the
watermark, after `propegate` finishes — with a new board, with Contradiction,
or with an escaped exception — every space of the receiver holds the same
`value`, `possible_values` and `neighbors` as before the call; indeed every
pre-existing object (any reference below the watermark, so also every space
of any snapshot retained in the driver's history) is entirely unchanged. -/
theorem propegate_no_receiver_mutation (N : Nat) (b : Nat × Nat → Nat)
    (rt alloc : Nat) (h : Heap) (hb : ∀ p : Nat × Nat, b p < alloc) :
    (∀ p : Nat × Nat,
      (heapOf (propegateH N b rt alloc h) (b p)).value = (h (b p)).value ∧
      (heapOf (propegateH N b rt alloc h) (b p)).possible_values =
        (h (b p)).possible_values ∧
      (heapOf (propegateH N b rt alloc h) (b p)).neighbors =
        (h (b p)).neighbors) ∧
    (∀ r, r < alloc → heapOf (propegateH N b rt alloc h) r = h r) := by
  have key : ∀ r, r < alloc → heapOf (propegateH N b rt alloc h) r = h r := by
    intro r hr
    have hct : ∀ p, copyTable N alloc (h rt).x (h rt).y p ≠ r := by
      intro p he
      have := copyTable_ge N alloc (h rt).x (h rt).y p
      omega
    have h1 := propLoopH_frame N (copyTable N alloc (h rt).x (h rt).y) r hct
      ((∑ p ∈ Finset.range N ×ˢ Finset.range N,
        ((heapAfterCopy N alloc b rt h
          (copyTable N alloc (h rt).x (h rt).y p)).possible_values).card) + 2)
      (heapAfterCopy N alloc b rt h) [rt]
    calc heapOf (propegateH N b rt alloc h) r
        = heapAfterCopy N alloc b rt h r := h1
      _ = h r := heapAfterCopy_frame N alloc b rt h r hr
  exact ⟨fun p => by rw [key (b p) (hb p)]; exact ⟨rfl, rfl, rfl⟩, key⟩

def c6Heap : Heap := fun r => if r = 0 then ⟨0, 0, 1, none, {1}, {1}⟩
  else ⟨0, 0, 1, some 1, {1}, ∅⟩

theorem propegate_no_receiver_mutation_witness :
    (heapOf (propegateH 1 (fun _ => 0) 1 2 c6Heap) 0).value =
        (c6Heap 0).value ∧
      (heapOf (propegateH 1 (fun _ => 0) 1 2 c6Heap) 0).possible_values =
        (c6Heap 0).possible_values ∧
      (heapOf (propegateH 1 (fun _ => 0) 1 2 c6Heap) 0).neighbors =
        (c6Heap 0).neighbors :=
  (propegate_no_receiver_mutation 1 (fun _ => 0) 1 2 c6Heap
    (fun p => by show (0 : Nat) < 2; decide)).1 (0, 0)
